import Mathlib

/-!
# Verification of fix_compilation.py

A shallow embedding of the regex-patching script `src/fix_compilation.py`.
The script reads a Rust source file, applies three `re.sub` substitutions
(two in `fix_task_structures`, one in `fix_conversation_entries`), writing
the file back after each of the two functions, and prints progress lines.

Each regex has the shape
  `(LIT1 \s* id: row\.get\("id"\), \s*)(case_id:)`
with a literal prefix LIT1, and the replacement inserts a `user_id`
field-initializer line between group 1 and group 2.  Because the
characters following each `\s*` in the pattern (`i` of `id:` and `c` of
`case_id:`) are not whitespace, Python's greedy-with-backtracking `\s*`
is equivalent to the deterministic "take the maximal whitespace run".
We embed `re.sub` as a left-to-right scanner that tries the pattern at
every position and, on a match, emits the replacement and resumes after
the match (Python's leftmost non-overlapping global substitution).

Documents are `List Char`.  `isSpace` is CPython's `\s` class for `str`
patterns (Unicode whitespace).
-/

def isSpace (c : Char) : Bool :=
  (9 ≤ c.toNat && c.toNat ≤ 13) || c.toNat == 32 ||
  (28 ≤ c.toNat && c.toNat ≤ 31) || c.toNat == 0x85 || c.toNat == 0xa0 ||
  c.toNat == 0x1680 || (0x2000 ≤ c.toNat && c.toNat ≤ 0x200a) ||
  c.toNat == 0x2028 || c.toNat == 0x2029 || c.toNat == 0x202f ||
  c.toNat == 0x205f || c.toNat == 0x3000

/-- The middle literal common to all three patterns: `id: row\.get\("id"\),`. -/
def litMid : List Char := "id: row.get(\"id\"),".data

/-- Group 2 of every pattern: `case_id:`. -/
def lit2 : List Char := "case_id:".data

/-- The inserted initializer text common to the three replacements
(the replacement is group1 ++ this ++ group2, with a trailing newline
and indentation that differs between the rules). -/
def insBase : List Char := "user_id: row.get(\"user_id\"),".data

/-- A substitution rule: the literal prefix of its pattern, and the text
its replacement inserts between group 1 and group 2. -/
structure Pat where
  lit1 : List Char
  ins : List Char
  deriving DecidableEq

/-- Rule 1 of `fix_task_structures`:
pattern `(tasks\.push\(Task \{\s*id: row\.get\("id"\),\s*)(case_id:)`,
replacement `\1user_id: row.get("user_id"),\n` ++ 16 spaces ++ `\2`. -/
def taskPushPat : Pat :=
  ⟨"tasks.push(Task \x7b".data, insBase ++ '\n' :: List.replicate 16 ' '⟩

/-- Rule 2 of `fix_task_structures`:
pattern `(Ok\(Task \{\s*id: row\.get\("id"\),\s*)(case_id:)`,
replacement `\1user_id: row.get("user_id"),\n` ++ 12 spaces ++ `\2`. -/
def okTaskPat : Pat :=
  ⟨"Ok(Task \x7b".data, insBase ++ '\n' :: List.replicate 12 ' '⟩

/-- The rule of `fix_conversation_entries`:
pattern `(entries\.push\(ConversationEntry \{\s*id: row\.get\("id"\),\s*)(case_id:)`,
replacement `\1user_id: row.get("user_id"),\n` ++ 16 spaces ++ `\2`. -/
def convPushPat : Pat :=
  ⟨"entries.push(ConversationEntry \x7b".data, insBase ++ '\n' :: List.replicate 16 ' '⟩

/-- Strip a literal from the front of a text, or fail. -/
def stripPfx : List Char → List Char → Option (List Char)
  | [], t => some t
  | _ :: _, [] => none
  | a :: as, c :: cs => if a = c then stripPfx as cs else none

/-- Try the rule's pattern at the start of `t`.  On success, returns
(group 1, text after the whole match).  `\s*` is realised as the maximal
whitespace run, which agrees with the regex because the following
pattern characters are non-whitespace. -/
def tryMatch (p : Pat) (t : List Char) : Option (List Char × List Char) :=
  (stripPfx p.lit1 t).bind fun t1 =>
  (stripPfx litMid (t1.dropWhile isSpace)).bind fun t3 =>
  (stripPfx lit2 (t3.dropWhile isSpace)).map fun rest =>
    (p.lit1 ++ t1.takeWhile isSpace ++ litMid ++ t3.takeWhile isSpace, rest)

/-- One `re.sub` pass as a fuel-indexed scanner: at each position try the
pattern; on a match emit `\1` ++ insertion ++ `\2` and resume after the
match, otherwise copy one character.  Fuel ≥ length makes it total. -/
def subFuel (p : Pat) : Nat → List Char → List Char
  | 0, s => s
  | _ + 1, [] => []
  | fuel + 1, c :: cs =>
    match tryMatch p (c :: cs) with
    | some (g, rest) => g ++ p.ins ++ lit2 ++ subFuel p fuel rest
    | none => c :: subFuel p fuel cs

/-- `re.sub(pattern, replacement, s)` for one of the three rules. -/
def re_sub (p : Pat) (s : List Char) : List Char := subFuel p s.length s

/-- In-memory effect of `fix_task_structures`: rule 1 then rule 2. -/
def fix_task_structures (content : List Char) : List Char :=
  re_sub okTaskPat (re_sub taskPushPat content)

/-- In-memory effect of `fix_conversation_entries`. -/
def fix_conversation_entries (content : List Char) : List Char :=
  re_sub convPushPat content

/-- The whole in-memory transformation of one patch run. -/
def fullPatch (d : List Char) : List Char :=
  fix_conversation_entries (fix_task_structures d)

/-- The hard-coded target path. -/
def dbFile : String :=
  "/Users/ravikadam/Documents/1learning/tasks/services/persistence-service/src/database_working.rs"

/-- Observable outcome of one run of `main`: final file contents (`none`
if the file does not exist), the sequence of whole-file writes performed,
and the console lines printed. -/
structure RunResult where
  file : Option (List Char)
  writes : List (List Char)
  console : List String
  deriving DecidableEq

/-- `main`: if the target exists, `fix_task_structures` loads it, applies
its two rules and saves, then `fix_conversation_entries` loads the saved
contents, applies its rule and saves again; otherwise a not-found line is
printed and nothing is written. -/
def mainRun (file : Option (List Char)) : RunResult :=
  match file with
  | some content =>
    let afterTask := fix_task_structures content
    let afterConv := fix_conversation_entries afterTask
    { file := some afterConv
      writes := [afterTask, afterConv]
      console := ["Fixed Task structures in " ++ dbFile,
                  "Fixed ConversationEntry structures in " ++ dbFile,
                  "Compilation fixes applied successfully!"] }
  | none =>
    { file := none
      writes := []
      console := ["Database file not found: " ++ dbFile] }

/-! ## Matching as a proposition -/

/-- All characters are `\s` whitespace. -/
def wsOnly (w : List Char) : Prop := ∀ c ∈ w, isSpace c = true

instance : DecidablePred wsOnly := fun w => List.decidableBAll _ w

/-- `a` is a leading segment of `t`. -/
def pfx (a t : List Char) : Prop := ∃ z, t = a ++ z

/-- The full text matched by rule `p` with whitespace runs `w1`, `w2`. -/
def mtext (p : Pat) (w1 w2 : List Char) : List Char :=
  p.lit1 ++ w1 ++ litMid ++ w2 ++ lit2

/-- The pattern of `p` matches in `t` at position `i`. -/
def MatchAt (p : Pat) (t : List Char) (i : Nat) : Prop :=
  ∃ w1 w2, wsOnly w1 ∧ wsOnly w2 ∧ pfx (mtext p w1 w2) (t.drop i)

/-- The pattern of `p` has no match anywhere in `s`. -/
def noMatch (p : Pat) (s : List Char) : Prop :=
  ∀ i, tryMatch p (s.drop i) = none

/-- Executable match test over all positions. -/
def hasMatchB (p : Pat) : List Char → Bool
  | [] => false
  | c :: cs => (tryMatch p (c :: cs)).isSome || hasMatchB p cs

/-! ## Basic lemmas about the matcher -/

theorem stripPfx_eq_some {a : List Char} :
    ∀ {t r : List Char}, stripPfx a t = some r ↔ t = a ++ r := by
  induction a with
  | nil => intro t r; simp [stripPfx]
  | cons x xs ih =>
    intro t r
    cases t with
    | nil => simp [stripPfx]
    | cons c cs =>
      by_cases hx : x = c
      · subst hx; simpa [stripPfx] using ih
      · simp [stripPfx, hx, Ne.symm hx]

theorem takeWhile_ws_append {w : List Char} (hw : wsOnly w) {c : Char}
    (hc : isSpace c = false) (z : List Char) :
    (w ++ c :: z).takeWhile isSpace = w ∧
    (w ++ c :: z).dropWhile isSpace = c :: z := by
  induction w with
  | nil => simp [List.takeWhile, List.dropWhile, hc]
  | cons a as ih =>
    have ha : isSpace a = true := hw a (by simp)
    have has : wsOnly as := fun x hx => hw x (by simp [hx])
    have := ih has
    simp [List.takeWhile, List.dropWhile, ha, this.1, this.2]

theorem wsOnly_takeWhile (t : List Char) : wsOnly (t.takeWhile isSpace) :=
  fun _ hc => List.mem_takeWhile_imp hc

theorem litMid_cons : litMid = 'i' :: "d: row.get(\"id\"),".data := by decide

theorem lit2_cons : lit2 = 'c' :: "ase_id:".data := by decide

theorem tryMatch_some_iff {p : Pat} {t g r : List Char} :
    tryMatch p t = some (g, r) ↔
    ∃ w1 w2, wsOnly w1 ∧ wsOnly w2 ∧ t = mtext p w1 w2 ++ r ∧
      g = p.lit1 ++ w1 ++ litMid ++ w2 := by
  constructor
  · intro h
    unfold tryMatch at h
    cases h1 : stripPfx p.lit1 t with
    | none => simp [h1] at h
    | some t1 =>
      simp only [h1, Option.some_bind] at h
      cases h2 : stripPfx litMid (t1.dropWhile isSpace) with
      | none => simp [h2] at h
      | some t3 =>
        simp only [h2, Option.some_bind] at h
        cases h3 : stripPfx lit2 (t3.dropWhile isSpace) with
        | none => simp [h3] at h
        | some rest =>
          simp only [h3, Option.map_some', Option.some.injEq,
            Prod.mk.injEq] at h
          obtain ⟨hg, hr⟩ := h
          refine ⟨t1.takeWhile isSpace, t3.takeWhile isSpace,
            wsOnly_takeWhile _, wsOnly_takeWhile _, ?_, hg.symm⟩
          have e1 : t = p.lit1 ++ t1 := stripPfx_eq_some.mp h1
          have e2 : t1.dropWhile isSpace = litMid ++ t3 := stripPfx_eq_some.mp h2
          have e3 : t3.dropWhile isSpace = lit2 ++ rest := stripPfx_eq_some.mp h3
          have e4 : t1 = t1.takeWhile isSpace ++ (litMid ++ t3) := by
            rw [← e2]; exact (List.takeWhile_append_dropWhile ..).symm
          have e5 : t3 = t3.takeWhile isSpace ++ (lit2 ++ rest) := by
            rw [← e3]; exact (List.takeWhile_append_dropWhile ..).symm
          subst hr
          conv_lhs => rw [e1, e4, e5]
          simp [mtext, List.append_assoc]
  · rintro ⟨w1, w2, hw1, hw2, ht, hg⟩
    have hi : isSpace 'i' = false := by decide
    have hcc : isSpace 'c' = false := by decide
    subst ht hg
    have e2 : (w1 ++ litMid ++ w2 ++ lit2 ++ r) =
        w1 ++ 'i' :: ("d: row.get(\"id\"),".data ++ w2 ++ lit2 ++ r) := by
      rw [litMid_cons]; simp [List.append_assoc]
    have e1 : stripPfx p.lit1 (mtext p w1 w2 ++ r) =
        some (w1 ++ 'i' :: ("d: row.get(\"id\"),".data ++ w2 ++ lit2 ++ r)) := by
      rw [← e2]
      apply stripPfx_eq_some.mpr
      simp [mtext, List.append_assoc]
    have tw1 := takeWhile_ws_append hw1 hi
      ("d: row.get(\"id\"),".data ++ w2 ++ lit2 ++ r)
    have e4 : ("d: row.get(\"id\"),".data ++ w2 ++ lit2 ++ r) =
        "d: row.get(\"id\"),".data ++ (w2 ++ 'c' :: ("ase_id:".data ++ r)) := by
      rw [lit2_cons]; simp [List.append_assoc]
    have e3 : stripPfx litMid
        ('i' :: ("d: row.get(\"id\"),".data ++ w2 ++ lit2 ++ r)) =
        some (w2 ++ 'c' :: ("ase_id:".data ++ r)) := by
      apply stripPfx_eq_some.mpr
      rw [litMid_cons, e4]; simp
    have tw2 := takeWhile_ws_append hw2 hcc ("ase_id:".data ++ r)
    have e5 : stripPfx lit2 ('c' :: ("ase_id:".data ++ r)) = some r := by
      apply stripPfx_eq_some.mpr
      rw [lit2_cons]; simp
    unfold tryMatch
    rw [e1]
    simp only [Option.some_bind, tw1.1, tw1.2, e3, tw2.1, tw2.2, e5,
      Option.map_some']

theorem tryMatch_none_iff {p : Pat} {t : List Char} :
    tryMatch p t = none ↔
    ∀ w1 w2 z, wsOnly w1 → wsOnly w2 → t ≠ mtext p w1 w2 ++ z := by
  constructor
  · intro h w1 w2 z hw1 hw2 ht
    have : tryMatch p t = some (p.lit1 ++ w1 ++ litMid ++ w2, z) :=
      tryMatch_some_iff.mpr ⟨w1, w2, hw1, hw2, ht, rfl⟩
    rw [h] at this; exact absurd this (by simp)
  · intro h
    cases htm : tryMatch p t with
    | none => rfl
    | some gr =>
      obtain ⟨w1, w2, hw1, hw2, ht, _⟩ :=
        tryMatch_some_iff.mp (htm.trans (congrArg some (Prod.mk.eta (p := gr)).symm))
      exact absurd ht (h w1 w2 _ hw1 hw2)

theorem matchAt_iff_tryMatch {p : Pat} {s : List Char} {i : Nat} :
    MatchAt p s i ↔ tryMatch p (s.drop i) ≠ none := by
  constructor
  · rintro ⟨w1, w2, hw1, hw2, z, hz⟩ hnone
    exact tryMatch_none_iff.mp hnone w1 w2 z hw1 hw2 hz
  · intro h
    cases htm : tryMatch p (s.drop i) with
    | none => exact absurd htm h
    | some gr =>
      obtain ⟨w1, w2, hw1, hw2, ht, _⟩ :=
        tryMatch_some_iff.mp (htm.trans (congrArg some (Prod.mk.eta (p := gr)).symm))
      exact ⟨w1, w2, hw1, hw2, _, ht⟩

theorem noMatch_iff_not_matchAt {p : Pat} {s : List Char} :
    noMatch p s ↔ ∀ i, ¬ MatchAt p s i := by
  constructor
  · intro h i hm; exact (matchAt_iff_tryMatch.mp hm) (h i)
  · intro h i
    by_contra hne
    exact h i (matchAt_iff_tryMatch.mpr hne)

/-! ## Helper lemmas about leading segments -/

theorem litMid_length : litMid.length = 18 := rfl

theorem lit2_length : lit2.length = 8 := rfl

theorem pfx_refl (a : List Char) : pfx a a := ⟨[], by simp⟩

theorem pfx_append (a z : List Char) : pfx a (a ++ z) := ⟨z, rfl⟩

theorem pfx_ext {a t z : List Char} (h : pfx a t) : pfx a (t ++ z) := by
  obtain ⟨u, hu⟩ := h
  exact ⟨u ++ z, by simp [hu]⟩

theorem pfx_take {a t : List Char} (h : pfx a t) : t.take a.length = a := by
  obtain ⟨u, hu⟩ := h
  simp [hu, List.take_append_eq_append_take]

theorem pfx_length_le {a t : List Char} (h : pfx a t) : a.length ≤ t.length := by
  obtain ⟨u, hu⟩ := h
  simp [hu]

theorem pfx_trunc {M A C : List Char} (h : pfx M (A ++ C))
    (hl : M.length ≤ A.length) : pfx M A := by
  obtain ⟨u, hu⟩ := h
  have h2 : A.take M.length = M := by
    have h1 : (A ++ C).take M.length = M := pfx_take ⟨u, hu⟩
    rw [List.take_append_eq_append_take, Nat.sub_eq_zero_of_le hl] at h1
    simpa using h1
  refine ⟨A.drop M.length, ?_⟩
  conv_lhs => rw [← List.take_append_drop M.length A]
  rw [h2]

theorem pfx_drop {M t : List Char} (h : pfx M t) (n : Nat)
    (hn : n ≤ M.length) : pfx (M.drop n) (t.drop n) := by
  obtain ⟨u, hu⟩ := h
  refine ⟨u, ?_⟩
  simp [hu, List.drop_append_eq_append_drop, Nat.sub_eq_zero_of_le hn]

theorem pfx_getElem {M t : List Char} (h : pfx M t) {j : Nat}
    (hj : j < M.length) : t[j]? = M[j]? := by
  obtain ⟨u, hu⟩ := h
  simp [hu, List.getElem?_append, hj]

theorem mem_of_pfx {M t : List Char} (h : pfx M t) {c : Char} (hc : c ∈ M) :
    c ∈ t := by
  obtain ⟨u, hu⟩ := h
  simp [hu, hc]

theorem pfx_take_agree {A B y : List Char} (h : pfx A (B ++ y)) (m : Nat)
    (hm : m ≤ A.length) (hmB : m ≤ B.length) : B.take m = A.take m := by
  obtain ⟨u, hu⟩ := h
  have : (B ++ y).take m = (A ++ u).take m := by rw [hu]
  simpa [List.take_append_eq_append_take, Nat.sub_eq_zero_of_le hm,
    Nat.sub_eq_zero_of_le hmB] using this

/-! ## Structure of one `re.sub` pass -/

theorem tryMatch_some_decomp {p : Pat} {t g r : List Char}
    (h : tryMatch p t = some (g, r)) :
    t = g ++ lit2 ++ r ∧
    ∃ w1 w2, wsOnly w1 ∧ wsOnly w2 ∧ g = p.lit1 ++ w1 ++ litMid ++ w2 := by
  obtain ⟨w1, w2, hw1, hw2, ht, hg⟩ := tryMatch_some_iff.mp h
  constructor
  · simp [ht, hg, mtext, List.append_assoc]
  · exact ⟨w1, w2, hw1, hw2, hg⟩

theorem tryMatch_some_length {p : Pat} {t g r : List Char}
    (h : tryMatch p t = some (g, r)) : r.length < t.length := by
  have hd := (tryMatch_some_decomp h).1
  have := congrArg List.length hd
  simp [lit2_length] at this
  omega

theorem tryMatch_nil (p : Pat) : tryMatch p [] = none := by
  rw [tryMatch_none_iff]
  intro w1 w2 z _ _ h
  have := congrArg List.length h
  simp [mtext, litMid_length, lit2_length] at this
  omega

theorem subFuel_nil (p : Pat) (f : Nat) : subFuel p f [] = [] := by
  cases f <;> rfl

theorem subFuel_fuel_irrel (p : Pat) :
    ∀ f1 f2 s, s.length ≤ f1 → s.length ≤ f2 →
      subFuel p f1 s = subFuel p f2 s := by
  intro f1
  induction f1 with
  | zero =>
    intro f2 s h1 _
    have : s = [] := List.length_eq_zero.mp (Nat.le_zero.mp h1)
    subst this
    simp [subFuel_nil]
  | succ a ih =>
    intro f2 s h1 h2
    cases s with
    | nil => simp [subFuel_nil]
    | cons c cs =>
      cases f2 with
      | zero => simp at h2
      | succ b =>
        show subFuel p (a + 1) (c :: cs) = subFuel p (b + 1) (c :: cs)
        simp only [subFuel]
        cases htm : tryMatch p (c :: cs) with
        | none =>
          simp only [htm]
          have hcs : cs.length ≤ a := by simp at h1; omega
          have hcs2 : cs.length ≤ b := by simp at h2; omega
          rw [ih b cs hcs hcs2]
        | some gr =>
          obtain ⟨g, r⟩ := gr
          simp only [htm]
          have hr : r.length < (c :: cs).length := tryMatch_some_length htm
          have hra : r.length ≤ a := by simp at h1 hr; omega
          have hrb : r.length ≤ b := by simp at h2 hr; omega
          rw [ih b r hra hrb]

theorem re_sub_nil (p : Pat) : re_sub p [] = [] := rfl

theorem re_sub_cons_none {p : Pat} {c : Char} {cs : List Char}
    (h : tryMatch p (c :: cs) = none) :
    re_sub p (c :: cs) = c :: re_sub p cs := by
  show subFuel p (c :: cs).length (c :: cs) = c :: re_sub p cs
  simp only [List.length_cons, subFuel, h]
  rfl

theorem re_sub_match {p : Pat} {s g r : List Char}
    (h : tryMatch p s = some (g, r)) :
    re_sub p s = g ++ p.ins ++ lit2 ++ re_sub p r := by
  cases s with
  | nil => rw [tryMatch_nil] at h; exact absurd h (by simp)
  | cons c cs =>
    have hr : r.length < (c :: cs).length := tryMatch_some_length h
    show subFuel p (c :: cs).length (c :: cs) = _
    simp only [List.length_cons, subFuel, h]
    rw [subFuel_fuel_irrel p cs.length r.length r (by simp at hr; omega) le_rfl]
    rfl

theorem re_sub_skip {p : Pat} :
    ∀ (n : Nat) (s : List Char), n ≤ s.length →
      (∀ i < n, tryMatch p (s.drop i) = none) →
      re_sub p s = s.take n ++ re_sub p (s.drop n) := by
  intro n
  induction n with
  | zero => intro s _ _; simp
  | succ m ih =>
    intro s hn h
    cases s with
    | nil => simp at hn
    | cons c cs =>
      have h0 : tryMatch p (c :: cs) = none := h 0 (Nat.succ_pos m)
      rw [re_sub_cons_none h0]
      have hm : m ≤ cs.length := by simp at hn; omega
      have h' : ∀ i < m, tryMatch p (cs.drop i) = none := by
        intro i hi
        have := h (i + 1) (by omega)
        simpa using this
      rw [ih cs hm h']
      simp

theorem re_sub_noMatch {p : Pat} {s : List Char} (h : noMatch p s) :
    re_sub p s = s := by
  induction s with
  | nil => rfl
  | cons c cs ih =>
    have h0 : tryMatch p (c :: cs) = none := h 0
    rw [re_sub_cons_none h0]
    have : noMatch p cs := fun i => by
      have := h (i + 1); simpa using this
    rw [ih this]

/-- Leftmost-match decomposition of one `re.sub` pass: either there is no
match anywhere, or the scanner copies a maximal clean prefix, replaces the
leftmost match, and recurses on the remainder. -/
theorem leftmost (p : Pat) (s : List Char) :
    noMatch p s ∨
    ∃ n g r, (∀ i < n, tryMatch p (s.drop i) = none) ∧
      tryMatch p (s.drop n) = some (g, r) ∧
      s = s.take n ++ (g ++ (lit2 ++ r)) ∧
      re_sub p s = (s.take n ++ g) ++ (p.ins ++ lit2 ++ re_sub p r) ∧
      r.length < s.length ∧ n ≤ s.length := by
  induction s with
  | nil => exact Or.inl (fun i => by simpa using tryMatch_nil p)
  | cons c cs ih =>
    cases h0 : tryMatch p (c :: cs) with
    | some gr =>
      obtain ⟨g, r⟩ := gr
      refine Or.inr ⟨0, g, r, by omega, by simpa using h0, ?_, ?_, ?_, ?_⟩
      · have := (tryMatch_some_decomp h0).1
        simpa [List.append_assoc] using this
      · simpa [List.append_assoc] using re_sub_match h0
      · exact tryMatch_some_length h0
      · omega
    | none =>
      rcases ih with hnm | ⟨n, g, r, hclean, hm, hdec, hsub, hlen, hns⟩
      · refine Or.inl (fun i => ?_)
        cases i with
        | zero => simpa using h0
        | succ j => simpa using hnm j
      · refine Or.inr ⟨n + 1, g, r, ?_, by simpa using hm, ?_, ?_, ?_, ?_⟩
        · intro i hi
          cases i with
          | zero => simpa using h0
          | succ j => simpa using hclean j (by omega)
        · conv_lhs => rw [show (c :: cs) = c :: (cs.take n ++ (g ++ (lit2 ++ r))) from by rw [← hdec]]
          simp
        · rw [re_sub_cons_none h0, hsub]
          simp [List.append_assoc]
        · simp; omega
        · simp; omega

theorem hasMatchB_false_iff {p : Pat} {s : List Char} :
    hasMatchB p s = false ↔ noMatch p s := by
  induction s with
  | nil =>
    simp [hasMatchB]
    intro i
    simpa using tryMatch_nil p
  | cons c cs ih =>
    constructor
    · intro h i
      simp [hasMatchB, Bool.or_eq_false_iff] at h
      cases i with
      | zero => simpa using Option.not_isSome_iff_eq_none.mp (by simp [h.1])
      | succ j =>
        have := ih.mp h.2
        simpa using this j
    · intro h
      have h0 := h 0
      simp at h0
      have hcs : noMatch p cs := fun i => by simpa using h (i + 1)
      simp [hasMatchB, h0, ih.mpr hcs]

/-! ## Claim C1: the spec's scenario input -/

/-- The exact scenario input of the spec. -/
def c1Input : List Char :=
  "Task \x7b id: row.get(\"id\"), case_id: row.get(\"case_id\") \x7d".data

/-- The output the spec's scenario asserts. -/
def c1ClaimedOutput : List Char :=
  "Task \x7b id: row.get(\"id\"), user_id: row.get(\"user_id\"), case_id: row.get(\"case_id\") \x7d".data

/-- Claim C1 is false as stated: on the document consisting exactly of
`Task { id: row.get("id"), case_id: row.get("case_id") }`, a full patch
run does not produce the claimed output, because every rule's pattern
requires a wrapping prefix (`tasks.push(`, `Ok(`, or `entries.push(`)
that this document lacks. -/
theorem c1_counterexample : fullPatch c1Input ≠ c1ClaimedOutput := by decide

/-- Claim C1 (amended): on the spec's scenario input the whole patch run
is a no-op — the document is returned unchanged, since no rule's pattern
matches a bare `Task { ... }` without its wrapping context. -/
theorem c1_amended : fullPatch c1Input = c1Input := by decide

/-! ## Claim C2: number of loads/saves and the intermediate state -/

/-- A document whose only match is the ConversationEntry rule's. -/
def c2Doc : List Char :=
  "entries.push(ConversationEntry \x7b id: row.get(\"id\"), case_id: x \x7d)".data

/-- Claim C2 is false as stated: the run performs two whole-file saves,
not one, and the first save (made by `fix_task_structures`) differs from
the final contents — on disk the file transiently holds contents with
only rule group 1 applied while group 2's substitution is still pending. -/
theorem c2_counterexample :
    (mainRun (some c2Doc)).writes.length ≠ 1 ∧
    (mainRun (some c2Doc)).writes[0]? = some (fix_task_structures c2Doc) ∧
    (mainRun (some c2Doc)).writes[0]? ≠ some (fullPatch c2Doc) := by
  refine ⟨by decide, by decide, by decide⟩

/-- Claim C2 (amended): a run on an existing file performs two
load/apply/save cycles — `fix_task_structures` loads the file, applies
both Task rules and saves, then `fix_conversation_entries` loads the
saved contents, applies the ConversationEntry rule and saves again.  The
final contents equal group 2 applied after group 1, but between the two
saves the file holds the group-1-only contents. -/
theorem c2_amended (d : List Char) :
    mainRun (some d) =
      { file := some (fullPatch d)
        writes := [fix_task_structures d, fullPatch d]
        console := ["Fixed Task structures in " ++ dbFile,
                    "Fixed ConversationEntry structures in " ++ dbFile,
                    "Compilation fixes applied successfully!"] } := rfl

/-! ## Claim C4: no-op identity -/

/-- Claim C4: if none of the three rule patterns matches anywhere in the
document, every rule application returns the document unchanged, the whole
in-memory transformation is the identity, and both whole-file writes of a
run write back exactly the content that was read. -/
theorem c4_noop_identity (d : List Char)
    (h1 : hasMatchB taskPushPat d = false)
    (h2 : hasMatchB okTaskPat d = false)
    (h3 : hasMatchB convPushPat d = false) :
    re_sub taskPushPat d = d ∧ re_sub okTaskPat d = d ∧
    re_sub convPushPat d = d ∧ fullPatch d = d ∧
    (mainRun (some d)).writes = [d, d] ∧
    (mainRun (some d)).file = some d := by
  have e1 : re_sub taskPushPat d = d := re_sub_noMatch (hasMatchB_false_iff.mp h1)
  have e2 : re_sub okTaskPat d = d := re_sub_noMatch (hasMatchB_false_iff.mp h2)
  have e3 : re_sub convPushPat d = d := re_sub_noMatch (hasMatchB_false_iff.mp h3)
  have eT : fix_task_structures d = d := by
    rw [fix_task_structures, e1, e2]
  have eC : fix_conversation_entries d = d := by
    rw [fix_conversation_entries, e3]
  have eF : fullPatch d = d := by
    rw [fullPatch, eT, eC]
  exact ⟨e1, e2, e3, eF, by simp [mainRun, eT, eF, fullPatch, eC], by
    simp [mainRun, eT, eF, fullPatch, eC]⟩

/-- Witness for C4 at a concrete match-free document. -/
theorem c4_noop_identity_witness :
    re_sub taskPushPat "let x = 1;\n".data = "let x = 1;\n".data ∧
    re_sub okTaskPat "let x = 1;\n".data = "let x = 1;\n".data ∧
    re_sub convPushPat "let x = 1;\n".data = "let x = 1;\n".data ∧
    fullPatch "let x = 1;\n".data = "let x = 1;\n".data ∧
    (mainRun (some "let x = 1;\n".data)).writes =
      ["let x = 1;\n".data, "let x = 1;\n".data] ∧
    (mainRun (some "let x = 1;\n".data)).file = some "let x = 1;\n".data :=
  c4_noop_identity "let x = 1;\n".data (by decide) (by decide) (by decide)

/-! ## Claim C5: missing-file behavior -/

/-- Claim C5: when the hard-coded target path does not exist, the run
writes nothing, applies no rules, prints the not-found diagnostic, and
terminates normally (the run function is total and returns). -/
theorem c5_missing_file :
    mainRun none =
      { file := none
        writes := []
        console := ["Database file not found: " ++ dbFile] } := rfl

/-! ## The replacement block and insertion transparency

One `re.sub` pass only ever inserts `p.ins` immediately before an
occurrence of `lit2`; the output is built from untouched document text
and blocks `p.ins ++ lit2`.  The lemmas below show that no pattern of
the script can match across such a block: the block's first character
`u` occurs in no whitespace run and in neither `litMid` nor `lit2`, no
pattern's literal prefix occurs (even partially) starting inside the
block, and no proper suffix of a literal prefix aligns with the block's
start. -/

def insB (p : Pat) : List Char := p.ins ++ lit2

/-- No occurrence of `q.lit1` (even one straddling past the block's end)
starts inside the block of `p`. -/
def noLit1InB (q p : Pat) : Prop :=
  ∀ δ < (insB p).length,
    ((insB p).drop δ).take (min q.lit1.length ((insB p).length - δ)) ≠
      q.lit1.take (min q.lit1.length ((insB p).length - δ))

/-- No proper suffix of `q.lit1` is a leading segment of the block of `p`. -/
def noLit1TailB (q p : Pat) : Prop :=
  ∀ ρ < q.lit1.length, 1 ≤ ρ →
    (insB p).take (q.lit1.length - ρ) ≠ q.lit1.drop ρ

instance (q p : Pat) : Decidable (noLit1InB q p) := by
  unfold noLit1InB; infer_instance

instance (q p : Pat) : Decidable (noLit1TailB q p) := by
  unfold noLit1TailB; infer_instance

theorem pfx_of_append {a b t : List Char} (h : pfx (a ++ b) t) : pfx a t := by
  obtain ⟨z, hz⟩ := h
  exact ⟨b ++ z, by simp [hz]⟩

theorem mtext_length (q : Pat) (w1 w2 : List Char) :
    (mtext q w1 w2).length = q.lit1.length + w1.length + w2.length + 26 := by
  simp [mtext, List.length_append, litMid_length, lit2_length]
  omega

theorem mtext_assoc (q : Pat) (w1 w2 : List Char) :
    mtext q w1 w2 = q.lit1 ++ (w1 ++ (litMid ++ (w2 ++ lit2))) := by
  simp [mtext, List.append_assoc]

/-- Which component of the match text holds the character at offset `j`. -/
theorem mtext_getElem_cases {q : Pat} {w1 w2 : List Char} {j : Nat} {c : Char}
    (h : (mtext q w1 w2)[j]? = some c) :
    j < q.lit1.length ∨ c ∈ w1 ∨ c ∈ litMid ∨ c ∈ w2 ∨ c ∈ lit2 := by
  by_cases hj : j < q.lit1.length
  · exact Or.inl hj
  · right
    rw [mtext_assoc, List.getElem?_append, if_neg hj] at h
    have := List.getElem?_mem h
    simp [List.mem_append] at this
    tauto

/-- Insertion transparency: a match of pattern `q` in `x ++ block ++ y`,
where `block = p.ins ++ lit2` is a replacement block, lies entirely
inside `x` or entirely inside `y`. -/
theorem ins_transparent {q p : Pat}
    (hf1 : noLit1InB q p) (hf2 : noLit1TailB q p)
    (hlen1 : q.lit1.length ≤ (insB p).length)
    (hub : (insB p)[0]? = some 'u')
    {x y : List Char} {i : Nat}
    (h : MatchAt q (x ++ insB p ++ y) i) :
    MatchAt q x i ∨ (x.length + (insB p).length ≤ i ∧
      MatchAt q y (i - x.length - (insB p).length)) := by
  obtain ⟨w1, w2, hw1, hw2, hpfx⟩ := h
  have hML := mtext_length q w1 w2
  by_cases hA : i + (mtext q w1 w2).length ≤ x.length
  · left
    have hix : i ≤ x.length := by omega
    have ht : (x ++ insB p ++ y).drop i = x.drop i ++ (insB p ++ y) := by
      rw [List.drop_append_eq_append_drop, List.drop_append_eq_append_drop,
        Nat.sub_eq_zero_of_le hix,
        Nat.sub_eq_zero_of_le (show i ≤ (x ++ insB p).length by simp; omega)]
      simp
    rw [ht] at hpfx
    have := pfx_trunc hpfx (by simp [List.length_drop]; omega)
    exact ⟨w1, w2, hw1, hw2, this⟩
  by_cases hBc : x.length + (insB p).length ≤ i
  · right
    refine ⟨hBc, ?_⟩
    have hx1 : x.length ≤ i := by omega
    have ht : (x ++ insB p ++ y).drop i = y.drop (i - x.length - (insB p).length) := by
      rw [List.drop_append_eq_append_drop, List.drop_append_eq_append_drop,
        List.drop_eq_nil_of_le hx1,
        List.drop_eq_nil_of_le (show (insB p).length ≤ i - x.length by omega)]
      simp [Nat.sub_sub]
    rw [ht] at hpfx
    exact ⟨w1, w2, hw1, hw2, hpfx⟩
  exfalso
  push_neg at hA hBc
  by_cases hC : x.length ≤ i
  · -- the match would start inside the block
    have hδB : i - x.length < (insB p).length := by omega
    have ht : (x ++ insB p ++ y).drop i = (insB p).drop (i - x.length) ++ y := by
      rw [List.drop_append_eq_append_drop, List.drop_append_eq_append_drop,
        List.drop_eq_nil_of_le hC,
        Nat.sub_eq_zero_of_le (show i ≤ (x ++ insB p).length by simp; omega)]
      simp
    rw [ht] at hpfx
    rw [mtext_assoc] at hpfx
    have hl1 : pfx q.lit1 ((insB p).drop (i - x.length) ++ y) := pfx_of_append hpfx
    have h2 : min q.lit1.length ((insB p).length - (i - x.length)) ≤
        ((insB p).drop (i - x.length)).length := by
      simp [List.length_drop]
    have := pfx_take_agree hl1 _ (Nat.min_le_left _ _) h2
    exact hf1 (i - x.length) hδB this
  · -- the match would start in `x` and cover the block's first character
    push_neg at hC
    have hℓM : x.length - i < (mtext q w1 w2).length := by omega
    have hix : i ≤ x.length := le_of_lt hC
    have ht : (x ++ insB p ++ y).drop i = x.drop i ++ (insB p ++ y) := by
      rw [List.drop_append_eq_append_drop, List.drop_append_eq_append_drop,
        Nat.sub_eq_zero_of_le hix,
        Nat.sub_eq_zero_of_le (show i ≤ (x ++ insB p).length by simp; omega)]
      simp
    rw [ht] at hpfx
    have hxl : (x.drop i).length = x.length - i := by simp [List.length_drop]
    have hB0 : 0 < (insB p).length := by
      cases hb : insB p with
      | nil => rw [hb] at hub; simp at hub
      | cons a as => simp [hb]
    have hget : (x.drop i ++ (insB p ++ y))[x.length - i]? = some 'u' := by
      rw [List.getElem?_append, hxl, if_neg (lt_irrefl _), Nat.sub_self,
        List.getElem?_append, if_pos hB0]
      exact hub
    rw [pfx_getElem hpfx hℓM] at hget
    rcases mtext_getElem_cases hget with hj | hc | hc | hc | hc
    · -- offset inside `q.lit1`: a proper suffix of it would lead the block
      have hdrop := pfx_drop hpfx (x.length - i) (le_of_lt hℓM)
      have ht2 : (x.drop i ++ (insB p ++ y)).drop (x.length - i) =
          insB p ++ y := by
        rw [List.drop_append_eq_append_drop,
          List.drop_eq_nil_of_le (le_of_eq hxl), hxl, Nat.sub_self]
        simp
      rw [ht2] at hdrop
      rw [mtext_assoc, List.drop_append_eq_append_drop,
        Nat.sub_eq_zero_of_le (le_of_lt hj)] at hdrop
      simp only [List.drop_zero] at hdrop
      have hplit : pfx (q.lit1.drop (x.length - i)) (insB p ++ y) :=
        pfx_of_append hdrop
      have hlen2 : q.lit1.length - (x.length - i) ≤ (insB p).length := by omega
      have hagree := pfx_take_agree hplit (q.lit1.length - (x.length - i))
        (by simp [List.length_drop]) hlen2
      have htake : (q.lit1.drop (x.length - i)).take
          (q.lit1.length - (x.length - i)) = q.lit1.drop (x.length - i) := by
        rw [← List.length_drop]
        exact List.take_length _
      rw [htake] at hagree
      exact hf2 (x.length - i) hj (by omega) hagree
    · exact absurd (hw1 'u' hc) (by decide)
    · exact absurd hc (by decide)
    · exact absurd (hw2 'u' hc) (by decide)
    · exact absurd hc (by decide)

/-! ## The output of a pass has no leftover or newly created matches -/

theorem noMatch_suffix {p : Pat} {a b : List Char} (h : noMatch p (a ++ b)) :
    noMatch p b := by
  intro i
  have h2 := h (a.length + i)
  rw [List.drop_append_eq_append_drop, List.drop_eq_nil_of_le (by omega)] at h2
  simpa using h2

theorem matchAt_lift {p : Pat} {x z s : List Char} {i : Nat}
    (hs : s = x ++ z) (hix : i ≤ x.length)
    (h : MatchAt p x i) : MatchAt p s i := by
  obtain ⟨w1, w2, hw1, hw2, hpfx⟩ := h
  refine ⟨w1, w2, hw1, hw2, ?_⟩
  rw [hs, List.drop_append_eq_append_drop, Nat.sub_eq_zero_of_le hix]
  simpa using pfx_ext hpfx

theorem matchAt_pos_le {p : Pat} {x : List Char} {i : Nat}
    (h : MatchAt p x i) : i ≤ x.length := by
  obtain ⟨w1, w2, _, _, hpfx⟩ := h
  have h1 := pfx_length_le hpfx
  have h2 := mtext_length p w1 w2
  simp [List.length_drop] at h1
  omega

/-- After one pass of rule `p`, the document contains no match of `p`:
every original match was replaced (and the replacement's interior cannot
complete a new one), so a second pass is a no-op. -/
theorem self_noMatch {p : Pat}
    (hf1 : noLit1InB p p) (hf2 : noLit1TailB p p)
    (hlen1 : p.lit1.length ≤ (insB p).length)
    (hub : (insB p)[0]? = some 'u')
    (hcl : ('c' : Char) ∉ p.lit1) :
    ∀ s, noMatch p (re_sub p s) := by
  suffices h : ∀ n s, s.length ≤ n → noMatch p (re_sub p s) by
    exact fun s => h s.length s le_rfl
  intro n
  induction n using Nat.strong_induction_on with
  | _ n ih =>
    intro s hs
    rcases leftmost p s with hnm | ⟨m, g, r, hclean, hm, hdec, hsub, hlen, hns⟩
    · rw [re_sub_noMatch hnm]; exact hnm
    · rw [hsub]
      have hre : (s.take m ++ g) ++ (p.ins ++ lit2 ++ re_sub p r) =
          (s.take m ++ g) ++ insB p ++ re_sub p r := by
        simp [insB, List.append_assoc]
      rw [hre, noMatch_iff_not_matchAt]
      intro i hma
      rcases ins_transparent hf1 hf2 hlen1 hub hma with hx | ⟨_, hy⟩
      · have hs_eq : s = (s.take m ++ g) ++ (lit2 ++ r) := by
          conv_lhs => rw [hdec]
          simp [List.append_assoc]
        by_cases him : i < m
        · have hms : MatchAt p s i :=
            matchAt_lift hs_eq (matchAt_pos_le hx) hx
          exact (matchAt_iff_tryMatch.mp hms) (hclean i him)
        · push_neg at him
          obtain ⟨w1, w2, hw1, hw2, hpfx⟩ := hx
          have hc2 : ('c' : Char) ∈ lit2 := by decide
          have hcM : ('c' : Char) ∈ mtext p w1 w2 := by
            rw [mtext]; simp [hc2]
          have hcx : ('c' : Char) ∈ (s.take m ++ g).drop i :=
            mem_of_pfx hpfx hcM
          have hmlen : (s.take m).length = m := by
            simp [List.length_take]; omega
          have hcg : ('c' : Char) ∈ g := by
            rw [List.drop_append_eq_append_drop,
              List.drop_eq_nil_of_le (by omega)] at hcx
            simp at hcx
            exact List.mem_of_mem_drop hcx
          obtain ⟨wa, wb, hwa, hwb, hg⟩ := (tryMatch_some_decomp hm).2
          rw [hg] at hcg
          rcases List.mem_append.mp hcg with h3 | hc
          · rcases List.mem_append.mp h3 with h4 | hc
            · rcases List.mem_append.mp h4 with hc | hc
              · exact hcl hc
              · exact absurd (hwa 'c' hc) (by decide)
            · exact absurd hc (by decide)
          · exact absurd (hwb 'c' hc) (by decide)
      · have hnY : noMatch p (re_sub p r) := by
          have hn1 : 1 ≤ n := by omega
          exact ih (n - 1) (by omega) r (by omega)
        exact (noMatch_iff_not_matchAt.mp hnY) _ hy

/-- A pass of rule `q` cannot create a match of rule `p`: if `p` had no
match before the pass, it has none after. -/
theorem preserve_noMatch {p q : Pat}
    (hf1 : noLit1InB p q) (hf2 : noLit1TailB p q)
    (hlen1 : p.lit1.length ≤ (insB q).length)
    (hub : (insB q)[0]? = some 'u') :
    ∀ s, noMatch p s → noMatch p (re_sub q s) := by
  suffices h : ∀ n s, s.length ≤ n → noMatch p s → noMatch p (re_sub q s) by
    exact fun s => h s.length s le_rfl
  intro n
  induction n using Nat.strong_induction_on with
  | _ n ih =>
    intro s hs hnm
    rcases leftmost q s with hq | ⟨m, g, r, hclean, hm, hdec, hsub, hlen, hns⟩
    · rw [re_sub_noMatch hq]; exact hnm
    · rw [hsub]
      have hre : (s.take m ++ g) ++ (q.ins ++ lit2 ++ re_sub q r) =
          (s.take m ++ g) ++ insB q ++ re_sub q r := by
        simp [insB, List.append_assoc]
      rw [hre, noMatch_iff_not_matchAt]
      intro i hma
      rcases ins_transparent hf1 hf2 hlen1 hub hma with hx | ⟨_, hy⟩
      · have hs_eq : s = (s.take m ++ g) ++ (lit2 ++ r) := by
          conv_lhs => rw [hdec]
          simp [List.append_assoc]
        have hms : MatchAt p s i := matchAt_lift hs_eq (matchAt_pos_le hx) hx
        exact (matchAt_iff_tryMatch.mp hms) (hnm i)
      · have hr : noMatch p r := by
          have hseq : s = (s.take m ++ g ++ lit2) ++ r := by
            conv_lhs => rw [hdec]
            simp [List.append_assoc]
          exact noMatch_suffix (hseq ▸ hnm)
        have hnY : noMatch p (re_sub q r) := ih (n - 1) (by omega) r (by omega) hr
        exact (noMatch_iff_not_matchAt.mp hnY) _ hy

/-! ## Instantiated facts for the three rules -/

theorem self_taskPush : ∀ s, noMatch taskPushPat (re_sub taskPushPat s) :=
  self_noMatch (by decide) (by decide) (by decide) (by decide) (by decide)

theorem self_okTask : ∀ s, noMatch okTaskPat (re_sub okTaskPat s) :=
  self_noMatch (by decide) (by decide) (by decide) (by decide) (by decide)

theorem self_convPush : ∀ s, noMatch convPushPat (re_sub convPushPat s) :=
  self_noMatch (by decide) (by decide) (by decide) (by decide) (by decide)

theorem pres_task_ok :
    ∀ s, noMatch taskPushPat s → noMatch taskPushPat (re_sub okTaskPat s) :=
  preserve_noMatch (by decide) (by decide) (by decide) (by decide)

theorem pres_task_conv :
    ∀ s, noMatch taskPushPat s → noMatch taskPushPat (re_sub convPushPat s) :=
  preserve_noMatch (by decide) (by decide) (by decide) (by decide)

theorem pres_ok_task :
    ∀ s, noMatch okTaskPat s → noMatch okTaskPat (re_sub taskPushPat s) :=
  preserve_noMatch (by decide) (by decide) (by decide) (by decide)

theorem pres_ok_conv :
    ∀ s, noMatch okTaskPat s → noMatch okTaskPat (re_sub convPushPat s) :=
  preserve_noMatch (by decide) (by decide) (by decide) (by decide)

theorem pres_conv_task :
    ∀ s, noMatch convPushPat s → noMatch convPushPat (re_sub taskPushPat s) :=
  preserve_noMatch (by decide) (by decide) (by decide) (by decide)

theorem pres_conv_ok :
    ∀ s, noMatch convPushPat s → noMatch convPushPat (re_sub okTaskPat s) :=
  preserve_noMatch (by decide) (by decide) (by decide) (by decide)

/-- After a full patch run no rule's pattern matches anywhere. -/
theorem fullPatch_noMatch (d : List Char) :
    noMatch taskPushPat (fullPatch d) ∧ noMatch okTaskPat (fullPatch d) ∧
    noMatch convPushPat (fullPatch d) := by
  have hF : fullPatch d =
      re_sub convPushPat (re_sub okTaskPat (re_sub taskPushPat d)) := rfl
  refine ⟨?_, ?_, ?_⟩
  · rw [hF]
    exact pres_task_conv _ (pres_task_ok _ (self_taskPush d))
  · rw [hF]
    exact pres_ok_conv _ (self_okTask _)
  · rw [hF]
    exact self_convPush _

/-! ## Claim C3: idempotence -/

/-- Claim C3: the patch transformation is idempotent — after one full run
every rule's pattern has zero matches on the patched text, so a second
full run (both Task rules, then the ConversationEntry rule) changes
nothing. -/
theorem c3_idempotent (d : List Char) :
    fullPatch (fullPatch d) = fullPatch d := by
  obtain ⟨h1, h2, h3⟩ := fullPatch_noMatch d
  show re_sub convPushPat (re_sub okTaskPat (re_sub taskPushPat (fullPatch d)))
      = fullPatch d
  rw [re_sub_noMatch h1, re_sub_noMatch h2, re_sub_noMatch h3]

/-! ## No pattern starts inside another pattern's match region -/

/-- `A` does not occur starting at any position of `L` — not even an
occurrence that agrees with a suffix of `L` and would continue past its
end: the disagreement always happens within `L` itself. -/
def noOccAt (L A : List Char) : Prop :=
  ∀ δ < L.length,
    (L.drop δ).take (min A.length (L.length - δ)) ≠
      A.take (min A.length (L.length - δ))

instance (L A : List Char) : Decidable (noOccAt L A) := by
  unfold noOccAt; infer_instance

/-- The text is nonempty and starts with a non-whitespace character. -/
def headNotWs : List Char → Prop
  | [] => False
  | c :: _ => isSpace c = false

instance : DecidablePred headNotWs := fun A =>
  match A with
  | [] => isFalse (fun h => h)
  | _ :: _ => inferInstanceAs (Decidable (_ = false))

theorem drop_seg {A R : List Char} {i : Nat} (hi : i < A.length) :
    (A ++ R).drop i = A.drop i ++ R := by
  rw [List.drop_append_eq_append_drop, Nat.sub_eq_zero_of_le (le_of_lt hi)]
  simp

theorem drop_seg_ge {A R : List Char} {i : Nat} (hi : A.length ≤ i) :
    (A ++ R).drop i = R.drop (i - A.length) := by
  rw [List.drop_append_eq_append_drop, List.drop_eq_nil_of_le hi]
  simp

theorem occAt_refute {L A R : List Char} (hocc : noOccAt L A) {δ : Nat}
    (hδ : δ < L.length) (h : pfx A (L.drop δ ++ R)) : False :=
  hocc δ hδ (pfx_take_agree h _ (Nat.min_le_left _ _)
    (by rw [List.length_drop]; exact Nat.min_le_right _ _))

theorem ws_refute {w R A : List Char} (hw : wsOnly w) (hhd : headNotWs A)
    {δ : Nat} (hδ : δ < w.length) (h : pfx A (w.drop δ ++ R)) : False := by
  cases hA : A with
  | nil => rw [hA] at hhd; exact hhd
  | cons a as =>
    rw [hA] at h hhd
    have h0 : ((w.drop δ) ++ R)[0]? = some a :=
      (pfx_getElem h (show 0 < (a :: as).length by simp)).trans (by simp)
    have hlen : 0 < (w.drop δ).length := by
      rw [List.length_drop]; omega
    rw [List.getElem?_append, if_pos hlen] at h0
    have hmem : a ∈ w := List.mem_of_mem_drop (List.getElem?_mem h0)
    have hfalse : isSpace a = false := by simpa [headNotWs] using hhd
    rw [hw a hmem] at hfalse
    exact absurd hfalse (by simp)

/-- No match of `q` can start anywhere inside a region of the form
`L ++ ws ++ litMid ++ ws ++ lit2` (for instance, inside a match of
another rule, where `L` is that rule's literal prefix). -/
theorem no_match_region {q : Pat} {L w1 w2 z : List Char}
    (hw1 : wsOnly w1) (hw2 : wsOnly w2)
    (hL : noOccAt L q.lit1) (hMid : noOccAt litMid q.lit1)
    (hL2 : noOccAt lit2 q.lit1) (hhd : headNotWs q.lit1)
    {i : Nat}
    (hi : i < L.length + w1.length + litMid.length + w2.length + lit2.length)
    (hma : MatchAt q (L ++ (w1 ++ (litMid ++ (w2 ++ (lit2 ++ z))))) i) :
    False := by
  obtain ⟨v1, v2, hv1, hv2, hpfx⟩ := hma
  rw [mtext_assoc] at hpfx
  have hq1 := pfx_of_append hpfx
  by_cases c1 : i < L.length
  · rw [drop_seg c1] at hq1
    exact occAt_refute hL c1 hq1
  push_neg at c1
  rw [drop_seg_ge c1] at hq1
  by_cases c2 : i - L.length < w1.length
  · rw [drop_seg c2] at hq1
    exact ws_refute hw1 hhd c2 hq1
  push_neg at c2
  rw [drop_seg_ge c2] at hq1
  by_cases c3 : i - L.length - w1.length < litMid.length
  · rw [drop_seg c3] at hq1
    exact occAt_refute hMid c3 hq1
  push_neg at c3
  rw [drop_seg_ge c3] at hq1
  by_cases c4 : i - L.length - w1.length - litMid.length < w2.length
  · rw [drop_seg c4] at hq1
    exact ws_refute hw2 hhd c4 hq1
  push_neg at c4
  rw [drop_seg_ge c4] at hq1
  have c5 : i - L.length - w1.length - litMid.length - w2.length <
      lit2.length := by omega
  rw [drop_seg c5] at hq1
  exact occAt_refute hL2 c5 hq1

/-- Specialized form: no match of `q` starts inside the leftmost match of
`p` (positions `0 ≤ i < |group1| + |lit2|` of a text that begins with a
`p`-match). -/
theorem no_cross_in_match {p q : Pat} {s g r : List Char}
    (hm : tryMatch p s = some (g, r))
    (hL : noOccAt p.lit1 q.lit1) (hMid : noOccAt litMid q.lit1)
    (hL2 : noOccAt lit2 q.lit1) (hhd : headNotWs q.lit1) :
    ∀ i < g.length + lit2.length, ¬ MatchAt q s i := by
  intro i hi hma
  obtain ⟨w1, w2, hw1, hw2, ht, hg⟩ := tryMatch_some_iff.mp hm
  have hseq : s = p.lit1 ++ (w1 ++ (litMid ++ (w2 ++ (lit2 ++ r)))) := by
    rw [ht, mtext_assoc]
    simp [List.append_assoc]
  have hgl : g.length = p.lit1.length + w1.length + litMid.length + w2.length := by
    rw [hg]; simp [List.length_append]; omega
  rw [hseq] at hma
  exact no_match_region hw1 hw2 hL hMid hL2 hhd (by omega) hma

/-! ## Commutation of passes of rules with non-interacting patterns -/

/-- The facts needed to show a pass of `q` does not interact with a pass
of `p`: `q` cannot match across `p`'s replacement blocks, cannot start
inside a `p`-match, and `p`'s group 1 contains no `c` (so no full match
of anything fits inside it). -/
structure CommFacts (p q : Pat) : Prop where
  ins1 : noLit1InB q p
  ins2 : noLit1TailB q p
  lenqp : q.lit1.length ≤ (insB p).length
  hub : (insB p)[0]? = some 'u'
  occ : noOccAt p.lit1 q.lit1
  occMid : noOccAt litMid q.lit1
  occL2 : noOccAt lit2 q.lit1
  hd : headNotWs q.lit1
  cP : ('c' : Char) ∉ p.lit1

/-- A pass of `p` cannot create a match of `q` at position 0. -/
theorem head0 {p q : Pat} (hf : CommFacts p q) {s : List Char}
    (h : ¬ MatchAt q s 0) : ¬ MatchAt q (re_sub p s) 0 := by
  rcases leftmost p s with hnm | ⟨m, g, r, hclean, hm, hdec, hsub, hlen, hns⟩
  · rw [re_sub_noMatch hnm]; exact h
  · rw [hsub]
    have hre : (s.take m ++ g) ++ (p.ins ++ lit2 ++ re_sub p r) =
        (s.take m ++ g) ++ insB p ++ re_sub p r := by
      simp [insB, List.append_assoc]
    rw [hre]
    intro hma
    rcases ins_transparent hf.ins1 hf.ins2 hf.lenqp hf.hub hma with hx | ⟨hge, _⟩
    · have hs_eq : s = (s.take m ++ g) ++ (lit2 ++ r) := by
        conv_lhs => rw [hdec]
        simp [List.append_assoc]
      exact h (matchAt_lift hs_eq (matchAt_pos_le hx) hx)
    · have hbl : (insB p).length = p.ins.length + 8 := by
        simp [insB, lit2_length]
      omega

/-- One step of the commutation argument: if `s` begins with a `p`-match,
a `q`-pass walks over the whole replaced region unchanged, in both orders. -/
theorem comm_step {p q : Pat} (hpq : CommFacts p q)
    {s g r : List Char} (hm : tryMatch p s = some (g, r))
    (ihr : re_sub q (re_sub p r) = re_sub p (re_sub q r)) :
    re_sub q (re_sub p s) = re_sub p (re_sub q s) := by
  obtain ⟨w1, w2, hw1, hw2, ht, hg⟩ := tryMatch_some_iff.mp hm
  have hseq : s = (g ++ lit2) ++ r := by
    rw [ht, hg]
    simp [mtext, List.append_assoc]
  have hL : re_sub p s = (g ++ insB p) ++ re_sub p r := by
    rw [re_sub_match hm]
    simp [insB, List.append_assoc]
  have hnoq : ∀ i < (g ++ insB p).length,
      tryMatch q (((g ++ insB p) ++ re_sub p r).drop i) = none := by
    intro i hi
    by_contra hne
    have hma : MatchAt q ((g ++ insB p) ++ re_sub p r) i :=
      matchAt_iff_tryMatch.mpr hne
    rcases ins_transparent hpq.ins1 hpq.ins2 hpq.lenqp hpq.hub
      (show MatchAt q (g ++ insB p ++ re_sub p r) i from hma) with hx | ⟨hge, _⟩
    · obtain ⟨v1, v2, hv1, hv2, hpfx⟩ := hx
      have hc2 : ('c' : Char) ∈ lit2 := by decide
      have hcM : ('c' : Char) ∈ mtext q v1 v2 := by
        rw [mtext]; simp [hc2]
      have hcg : ('c' : Char) ∈ g :=
        List.mem_of_mem_drop (mem_of_pfx hpfx hcM)
      rw [hg] at hcg
      rcases List.mem_append.mp hcg with h3 | hc
      · rcases List.mem_append.mp h3 with h4 | hc
        · rcases List.mem_append.mp h4 with hc | hc
          · exact hpq.cP hc
          · exact absurd (hw1 'c' hc) (by decide)
        · exact absurd hc (by decide)
      · exact absurd (hw2 'c' hc) (by decide)
    · have : (g ++ insB p).length = g.length + (insB p).length := by simp
      omega
  have hskip := re_sub_skip (p := q) (g ++ insB p).length
    ((g ++ insB p) ++ re_sub p r) (by simp) hnoq
  rw [List.take_left, List.drop_left] at hskip
  have hnoq2 : ∀ i < (g ++ lit2).length, tryMatch q (s.drop i) = none := by
    intro i hi
    by_contra hne
    have hma := matchAt_iff_tryMatch.mpr hne
    have hgl : (g ++ lit2).length = g.length + lit2.length := by simp
    exact no_cross_in_match hm hpq.occ hpq.occMid hpq.occL2 hpq.hd i
      (by omega) hma
  have hqS : re_sub q s = (g ++ lit2) ++ re_sub q r := by
    have hnoq3 : ∀ i < (g ++ lit2).length,
        tryMatch q (((g ++ lit2) ++ r).drop i) = none := by
      rw [← hseq]; exact hnoq2
    conv_lhs => rw [hseq]
    rw [re_sub_skip (g ++ lit2).length ((g ++ lit2) ++ r) (by simp) hnoq3,
      List.take_left, List.drop_left]
  have hm2 : tryMatch p ((g ++ lit2) ++ re_sub q r) = some (g, re_sub q r) := by
    apply tryMatch_some_iff.mpr
    refine ⟨w1, w2, hw1, hw2, ?_, hg⟩
    rw [hg]
    simp [mtext, List.append_assoc]
  rw [hL, hskip, ihr, hqS, re_sub_match hm2]
  simp [insB, List.append_assoc]

/-- Passes of two rules whose patterns cannot interact commute. -/
theorem comm_re_sub {p q : Pat} (hpq : CommFacts p q) (hqp : CommFacts q p) :
    ∀ s, re_sub q (re_sub p s) = re_sub p (re_sub q s) := by
  suffices h : ∀ n s, s.length ≤ n →
      re_sub q (re_sub p s) = re_sub p (re_sub q s) by
    exact fun s => h s.length s le_rfl
  intro n
  induction n using Nat.strong_induction_on with
  | _ n ih =>
    intro s hs
    cases hp0 : tryMatch p s with
    | some gr =>
      obtain ⟨g, r⟩ := gr
      have hr : r.length < s.length := tryMatch_some_length hp0
      exact comm_step hpq hp0 (ih (n - 1) (by omega) r (by omega))
    | none =>
      cases hq0 : tryMatch q s with
      | some gr =>
        obtain ⟨g, r⟩ := gr
        have hr : r.length < s.length := tryMatch_some_length hq0
        exact (comm_step hqp hq0 ((ih (n - 1) (by omega) r (by omega)).symm)).symm
      | none =>
        cases s with
        | nil => simp [re_sub_nil]
        | cons c cs =>
          have hcP : re_sub p (c :: cs) = c :: re_sub p cs :=
            re_sub_cons_none hp0
          have hcQ : re_sub q (c :: cs) = c :: re_sub q cs :=
            re_sub_cons_none hq0
          have hnm0q : ¬ MatchAt q (c :: cs) 0 := fun hma =>
            (matchAt_iff_tryMatch.mp hma) (by simpa using hq0)
          have hnm0p : ¬ MatchAt p (c :: cs) 0 := fun hma =>
            (matchAt_iff_tryMatch.mp hma) (by simpa using hp0)
          have hq1 : tryMatch q (c :: re_sub p cs) = none := by
            by_contra hne
            refine head0 hpq hnm0q ?_
            rw [hcP]
            exact matchAt_iff_tryMatch.mpr (by simpa using hne)
          have hp1 : tryMatch p (c :: re_sub q cs) = none := by
            by_contra hne
            refine head0 hqp hnm0p ?_
            rw [hcQ]
            exact matchAt_iff_tryMatch.mpr (by simpa using hne)
          have hlc : (c :: cs).length = cs.length + 1 := by simp
          rw [hcP, hcQ, re_sub_cons_none hq1, re_sub_cons_none hp1,
            ih (n - 1) (by omega) cs (by omega)]

theorem commFacts_task_conv : CommFacts taskPushPat convPushPat :=
  ⟨by decide, by decide, by decide, by decide, by decide, by decide,
   by decide, by decide, by decide⟩

theorem commFacts_conv_task : CommFacts convPushPat taskPushPat :=
  ⟨by decide, by decide, by decide, by decide, by decide, by decide,
   by decide, by decide, by decide⟩

theorem commFacts_ok_conv : CommFacts okTaskPat convPushPat :=
  ⟨by decide, by decide, by decide, by decide, by decide, by decide,
   by decide, by decide, by decide⟩

theorem commFacts_conv_ok : CommFacts convPushPat okTaskPat :=
  ⟨by decide, by decide, by decide, by decide, by decide, by decide,
   by decide, by decide, by decide⟩

theorem comm_task_conv (s : List Char) :
    re_sub convPushPat (re_sub taskPushPat s) =
    re_sub taskPushPat (re_sub convPushPat s) :=
  comm_re_sub commFacts_task_conv commFacts_conv_task s

theorem comm_ok_conv (s : List Char) :
    re_sub convPushPat (re_sub okTaskPat s) =
    re_sub okTaskPat (re_sub convPushPat s) :=
  comm_re_sub commFacts_ok_conv commFacts_conv_ok s

/-! ## Claim C7: the rule groups commute -/

/-- Claim C7: applying the Task rule group (`fix_task_structures`, both
Task substitutions) and then the ConversationEntry rule group yields the
same document as the opposite order, for every document: the groups'
patterns target disjoint text, so neither pass can affect the other's
matches. -/
theorem c7_groups_commute (d : List Char) :
    fix_conversation_entries (fix_task_structures d) =
    fix_task_structures (fix_conversation_entries d) := by
  show re_sub convPushPat (re_sub okTaskPat (re_sub taskPushPat d)) =
    re_sub okTaskPat (re_sub taskPushPat (re_sub convPushPat d))
  rw [comm_ok_conv (re_sub taskPushPat d), comm_task_conv d]

/-! ## Claim C8: insertion correctness -/

/-- Claim C8: insertion correctness.  For a document with exactly one
occurrence of rule `p`'s recognized wrapping context (clean prefix `a`,
one full pattern occurrence, clean tail `c`, and no occurrence of the
other two rules' patterns anywhere), the patched document is the original
with exactly the rule's initializer text inserted immediately before the
`case_id:` token of that occurrence — both for the single rule pass and
for the whole patch run — and all text outside the insertion point is
unchanged. -/
theorem c8_insertion_correct (p : Pat)
    (hp : p = taskPushPat ∨ p = okTaskPat ∨ p = convPushPat)
    (a c w1 w2 : List Char) (hw1 : wsOnly w1) (hw2 : wsOnly w2)
    (hA : ∀ i < a.length, tryMatch p
      ((a ++ (((p.lit1 ++ w1 ++ litMid ++ w2) ++ lit2) ++ c)).drop i) = none)
    (hC : hasMatchB p c = false)
    (hq1 : p ≠ taskPushPat → hasMatchB taskPushPat
      (a ++ (((p.lit1 ++ w1 ++ litMid ++ w2) ++ lit2) ++ c)) = false)
    (hq2 : p ≠ okTaskPat → hasMatchB okTaskPat
      (a ++ (((p.lit1 ++ w1 ++ litMid ++ w2) ++ lit2) ++ c)) = false)
    (hq3 : p ≠ convPushPat → hasMatchB convPushPat
      (a ++ (((p.lit1 ++ w1 ++ litMid ++ w2) ++ lit2) ++ c)) = false) :
    re_sub p (a ++ (((p.lit1 ++ w1 ++ litMid ++ w2) ++ lit2) ++ c)) =
      a ++ (((p.lit1 ++ w1 ++ litMid ++ w2) ++ insB p) ++ c) ∧
    fullPatch (a ++ (((p.lit1 ++ w1 ++ litMid ++ w2) ++ lit2) ++ c)) =
      a ++ (((p.lit1 ++ w1 ++ litMid ++ w2) ++ insB p) ++ c) := by
  have hm1 : tryMatch p (((p.lit1 ++ w1 ++ litMid ++ w2) ++ lit2) ++ c) =
      some (p.lit1 ++ w1 ++ litMid ++ w2, c) := by
    apply tryMatch_some_iff.mpr
    exact ⟨w1, w2, hw1, hw2, by simp [mtext, List.append_assoc], rfl⟩
  have hsingle : re_sub p (a ++ (((p.lit1 ++ w1 ++ litMid ++ w2) ++ lit2) ++ c)) =
      a ++ (((p.lit1 ++ w1 ++ litMid ++ w2) ++ insB p) ++ c) := by
    rw [re_sub_skip a.length _ (by simp) hA, List.take_left, List.drop_left,
      re_sub_match hm1, re_sub_noMatch (hasMatchB_false_iff.mp hC)]
    simp [insB, List.append_assoc]
  refine ⟨hsingle, ?_⟩
  rcases hp with rfl | rfl | rfl
  · have hok : noMatch okTaskPat _ := hasMatchB_false_iff.mp (hq2 (by decide))
    have hcv : noMatch convPushPat _ := hasMatchB_false_iff.mp (hq3 (by decide))
    show re_sub convPushPat (re_sub okTaskPat (re_sub taskPushPat _)) = _
    rw [re_sub_noMatch (pres_ok_task _ hok),
      re_sub_noMatch (pres_conv_task _ hcv)]
    exact hsingle
  · have htk : noMatch taskPushPat _ := hasMatchB_false_iff.mp (hq1 (by decide))
    have hcv : noMatch convPushPat _ := hasMatchB_false_iff.mp (hq3 (by decide))
    show re_sub convPushPat (re_sub okTaskPat (re_sub taskPushPat _)) = _
    rw [re_sub_noMatch htk, re_sub_noMatch (pres_conv_ok _ hcv)]
    exact hsingle
  · have htk : noMatch taskPushPat _ := hasMatchB_false_iff.mp (hq1 (by decide))
    have hok : noMatch okTaskPat _ := hasMatchB_false_iff.mp (hq2 (by decide))
    show re_sub convPushPat (re_sub okTaskPat (re_sub taskPushPat _)) = _
    rw [re_sub_noMatch htk, re_sub_noMatch hok]
    exact hsingle

/-- Witness for C8 with the `Ok(Task {` context. -/
theorem c8_insertion_correct_witness :
    re_sub okTaskPat ("X ".data ++
        (((okTaskPat.lit1 ++ [' '] ++ litMid ++ [' ']) ++ lit2) ++ " Y".data)) =
      "X ".data ++
        (((okTaskPat.lit1 ++ [' '] ++ litMid ++ [' ']) ++ insB okTaskPat) ++
          " Y".data) ∧
    fullPatch ("X ".data ++
        (((okTaskPat.lit1 ++ [' '] ++ litMid ++ [' ']) ++ lit2) ++ " Y".data)) =
      "X ".data ++
        (((okTaskPat.lit1 ++ [' '] ++ litMid ++ [' ']) ++ insB okTaskPat) ++
          " Y".data) :=
  c8_insertion_correct okTaskPat (Or.inr (Or.inl rfl)) "X ".data " Y".data
    [' '] [' '] (by decide) (by decide) (by decide) (by decide)
    (by decide) (by decide) (by decide)

/-! ## Substitution through an opaque region

A segment `R` of a document is opaque to rule `q` when no match of `q`
starts inside `R` (whatever follows it) and no match starting before `R`
can reach into it.  A pass of `q` over `x ++ (R ++ y)` then acts on `x`
and `y` independently and copies `R` verbatim.  The crossing refutation
reduces to decidable window facts about the literal text heading `R`. -/

/-- No tail window of `A` (starting at offset at least `lo`) agrees with
the leading characters of `L` over the full comparable length: an
occurrence of `A` beginning `A.length - k` characters before a region
headed by `L` is impossible. -/
def noWinPfx (L A : List Char) (lo : Nat) : Prop :=
  ∀ k < A.length, lo ≤ k →
    L.take (min (A.length - k) L.length) ≠
      (A.drop k).take (min (A.length - k) L.length)

instance (L A : List Char) (lo : Nat) : Decidable (noWinPfx L A lo) := by
  unfold noWinPfx; infer_instance

theorem winPfx_refute {L A z : List Char} {lo k : Nat}
    (hw : noWinPfx L A lo) (hlo : lo ≤ k) (hk : k < A.length)
    (h : pfx (A.drop k) (L ++ z)) : False := by
  apply hw k hk hlo
  apply pfx_take_agree h
  · simp only [List.length_drop]
    omega
  · exact Nat.min_le_right _ _

theorem ws_cross_refute {w s L z : List Char} {δ : Nat}
    (hw : wsOnly w) (hhd : headNotWs L) (hδ : δ < w.length)
    (h : pfx (w.drop δ ++ s) (L ++ z)) : False := by
  have h1 : pfx (w.drop δ) (L ++ z) := pfx_of_append h
  cases hL : L with
  | nil => rw [hL] at hhd; exact hhd
  | cons a as =>
    have hwd : 0 < (w.drop δ).length := by
      simp only [List.length_drop]; omega
    have h0 : (L ++ z)[0]? = (w.drop δ)[0]? := pfx_getElem h1 hwd
    rw [hL] at h0 hhd
    have ha : ((a :: as) ++ z)[0]? = some a := by simp
    rw [ha] at h0
    have hmem : a ∈ w := List.mem_of_mem_drop (List.getElem?_mem h0.symm)
    have hf : isSpace a = false := hhd
    rw [hw a hmem] at hf
    exact absurd hf (by simp)

/-- A match of `q` that starts strictly before a region headed by the
literal `L` cannot reach the region: whichever pattern component covers
the region's first character is refuted by a window fact or by `L`'s
non-whitespace head, so the matched text ends before the region. -/
theorem cross_refute {q : Pat} {L R1 : List Char}
    (h1 : noWinPfx L q.lit1 1) (h2 : noWinPfx L litMid 0)
    (h3 : noWinPfx L lit2 0) (hhd : headNotWs L)
    {u z v1 v2 : List Char} (hu : u ≠ []) (hv1 : wsOnly v1) (hv2 : wsOnly v2)
    (hpfx : pfx (mtext q v1 v2) (u ++ ((L ++ R1) ++ z))) :
    (mtext q v1 v2).length ≤ u.length := by
  by_contra hlt
  push_neg at hlt
  have hn1 : 1 ≤ u.length := by
    cases u with
    | nil => exact absurd rfl hu
    | cons a as => simp
  have hdrop0 := pfx_drop hpfx u.length (le_of_lt hlt)
  rw [List.drop_left] at hdrop0
  rw [List.append_assoc] at hdrop0
  rw [mtext_assoc] at hdrop0
  have hml := mtext_length q v1 v2
  have h18 : litMid.length = 18 := litMid_length
  have h8 : lit2.length = 8 := lit2_length
  by_cases c1 : u.length < q.lit1.length
  · rw [drop_seg c1] at hdrop0
    exact winPfx_refute h1 hn1 c1 (pfx_of_append hdrop0)
  push_neg at c1
  rw [drop_seg_ge c1] at hdrop0
  by_cases c2 : u.length - q.lit1.length < v1.length
  · rw [drop_seg c2] at hdrop0
    exact ws_cross_refute hv1 hhd c2 hdrop0
  push_neg at c2
  rw [drop_seg_ge c2] at hdrop0
  by_cases c3 : u.length - q.lit1.length - v1.length < litMid.length
  · rw [drop_seg c3] at hdrop0
    exact winPfx_refute h2 (Nat.zero_le _) c3 (pfx_of_append hdrop0)
  push_neg at c3
  rw [drop_seg_ge c3] at hdrop0
  by_cases c4 : u.length - q.lit1.length - v1.length - litMid.length < v2.length
  · rw [drop_seg c4] at hdrop0
    exact ws_cross_refute hv2 hhd c4 hdrop0
  push_neg at c4
  rw [drop_seg_ge c4] at hdrop0
  have c5 : u.length - q.lit1.length - v1.length - litMid.length - v2.length <
      lit2.length := by omega
  exact winPfx_refute h3 (Nat.zero_le _) c5 hdrop0

/-- One pass of `q` over `x ++ (R ++ y)`, where no match of `q` starts
inside `R` and no match can cross into `R` from the left, acts on `x`
and `y` separately and copies `R` verbatim. -/
theorem region_pass {q : Pat} {R : List Char}
    (hno : ∀ (z : List Char) (j : Nat), j < R.length → ¬ MatchAt q (R ++ z) j)
    (hcross : ∀ (u z v1 v2 : List Char), u ≠ [] → wsOnly v1 → wsOnly v2 →
      pfx (mtext q v1 v2) (u ++ (R ++ z)) → (mtext q v1 v2).length ≤ u.length) :
    ∀ (x y : List Char),
      re_sub q (x ++ (R ++ y)) = re_sub q x ++ (R ++ re_sub q y) := by
  suffices h : ∀ (n : Nat) (x y : List Char), x.length ≤ n →
      re_sub q (x ++ (R ++ y)) = re_sub q x ++ (R ++ re_sub q y) by
    exact fun x y => h x.length x y le_rfl
  intro n
  induction n using Nat.strong_induction_on with
  | _ n ih =>
    intro x y hxn
    cases x with
    | nil =>
      simp only [List.nil_append, re_sub_nil]
      have hc : ∀ i < R.length, tryMatch q ((R ++ y).drop i) = none := by
        intro i hi
        by_contra hne
        exact hno y i hi (matchAt_iff_tryMatch.mpr hne)
      rw [re_sub_skip R.length (R ++ y) (by simp) hc, List.take_left,
        List.drop_left]
    | cons c cs =>
      simp only [List.cons_append]
      have hlc : cs.length + 1 ≤ n := by simpa using hxn
      cases htm : tryMatch q (c :: (cs ++ (R ++ y))) with
      | none =>
        have htm2 : tryMatch q (c :: cs) = none := by
          by_contra hne
          have hm : MatchAt q (c :: cs) 0 := by
            rw [matchAt_iff_tryMatch]
            simpa using hne
          have hm2 : MatchAt q ((c :: cs) ++ (R ++ y)) 0 :=
            matchAt_lift rfl (Nat.zero_le _) hm
          have hne2 := matchAt_iff_tryMatch.mp hm2
          simp only [List.cons_append, List.drop_zero] at hne2
          exact hne2 htm
        rw [re_sub_cons_none htm, re_sub_cons_none htm2]
        rw [ih cs.length (by omega) cs y le_rfl]
        simp [List.cons_append]
      | some gr =>
        obtain ⟨g, r⟩ := gr
        obtain ⟨v1, v2, hv1, hv2, hteq, hgeq⟩ := tryMatch_some_iff.mp htm
        have hfit : (mtext q v1 v2).length ≤ (c :: cs).length := by
          apply hcross (c :: cs) y v1 v2 (by simp) hv1 hv2
          refine ⟨r, ?_⟩
          rw [List.cons_append]
          exact hteq
        have hpfl : pfx (mtext q v1 v2) ((c :: cs) ++ (R ++ y)) := by
          refine ⟨r, ?_⟩
          rw [List.cons_append]
          exact hteq
        have htake : (c :: cs).take (mtext q v1 v2).length = mtext q v1 v2 := by
          have h2 := pfx_take_agree hpfl (mtext q v1 v2).length le_rfl hfit
          rwa [List.take_length] at h2
        have hxsplit : c :: cs =
            mtext q v1 v2 ++ (c :: cs).drop (mtext q v1 v2).length := by
          conv_lhs => rw [← List.take_append_drop (mtext q v1 v2).length (c :: cs)]
          rw [htake]
        have h3 : mtext q v1 v2 ++ r =
            mtext q v1 v2 ++
              ((c :: cs).drop (mtext q v1 v2).length ++ (R ++ y)) := by
          rw [← hteq, ← List.cons_append]
          conv_lhs => rw [hxsplit]
          rw [List.append_assoc]
        have hr : r = (c :: cs).drop (mtext q v1 v2).length ++ (R ++ y) :=
          List.append_cancel_left h3
        have htmx : tryMatch q (c :: cs) =
            some (g, (c :: cs).drop (mtext q v1 v2).length) :=
          tryMatch_some_iff.mpr ⟨v1, v2, hv1, hv2, hxsplit, hgeq⟩
        rw [re_sub_match htm, re_sub_match htmx, hr]
        have hdlen : ((c :: cs).drop (mtext q v1 v2).length).length < n := by
          have hml := mtext_length q v1 v2
          have h4 : ((c :: cs).drop (mtext q v1 v2).length).length =
              cs.length + 1 - (mtext q v1 v2).length := by simp
          omega
        rw [ih ((c :: cs).drop (mtext q v1 v2).length).length hdlen
          ((c :: cs).drop (mtext q v1 v2).length) y le_rfl]
        simp [List.append_assoc]

/-! ## Claim C9: `Ok(ConversationEntry {` is never patched -/

/-- The success-result wrapping of a ConversationEntry literal, which no
rule's pattern recognizes. -/
def okConvLit : List Char := "Ok(ConversationEntry \x7b".data

/-- Claim C9: in every document, a text of the form
`Ok(ConversationEntry { id: row.get("id"), … case_id:` is left completely
unchanged by a full patch run — the only ConversationEntry rule requires
the `entries.push(` prefix, so no rule's pattern matches inside the
region or across its boundary, and the run transforms the surrounding
text independently while copying the region verbatim. -/
theorem c9_ok_conversation_entry (x y w1 w2 : List Char)
    (hw1 : wsOnly w1) (hw2 : wsOnly w2) :
    fullPatch (x ++ ((okConvLit ++ (w1 ++ (litMid ++ (w2 ++ lit2)))) ++ y)) =
      fullPatch x ++
        ((okConvLit ++ (w1 ++ (litMid ++ (w2 ++ lit2)))) ++ fullPatch y) := by
  have hpass : ∀ q : Pat, q = taskPushPat ∨ q = okTaskPat ∨ q = convPushPat →
      ∀ a b : List Char,
        re_sub q (a ++ ((okConvLit ++ (w1 ++ (litMid ++ (w2 ++ lit2)))) ++ b)) =
          re_sub q a ++
            ((okConvLit ++ (w1 ++ (litMid ++ (w2 ++ lit2)))) ++ re_sub q b) := by
    intro q hq
    have hfacts : noWinPfx okConvLit q.lit1 1 ∧ noWinPfx okConvLit litMid 0 ∧
        noWinPfx okConvLit lit2 0 ∧ noOccAt okConvLit q.lit1 ∧
        noOccAt litMid q.lit1 ∧ noOccAt lit2 q.lit1 ∧ headNotWs q.lit1 := by
      rcases hq with rfl | rfl | rfl <;>
        exact ⟨by decide, by decide, by decide, by decide, by decide, by decide,
          by decide⟩
    obtain ⟨hf1, hf2, hf3, hf4, hf5, hf6, hf7⟩ := hfacts
    apply region_pass
    · intro z j hj hma
      have hassoc : (okConvLit ++ (w1 ++ (litMid ++ (w2 ++ lit2)))) ++ z =
          okConvLit ++ (w1 ++ (litMid ++ (w2 ++ (lit2 ++ z)))) := by
        simp [List.append_assoc]
      rw [hassoc] at hma
      have hlen : (okConvLit ++ (w1 ++ (litMid ++ (w2 ++ lit2)))).length =
          okConvLit.length + w1.length + litMid.length + w2.length +
            lit2.length := by
        simp only [List.length_append]
        omega
      exact no_match_region hw1 hw2 hf4 hf5 hf6 hf7 (by omega) hma
    · intro u z v1 v2 hu hv1 hv2 hpf
      exact cross_refute hf1 hf2 hf3 (by decide) hu hv1 hv2 hpf
  show re_sub convPushPat (re_sub okTaskPat (re_sub taskPushPat
      (x ++ ((okConvLit ++ (w1 ++ (litMid ++ (w2 ++ lit2)))) ++ y)))) =
    re_sub convPushPat (re_sub okTaskPat (re_sub taskPushPat x)) ++
      ((okConvLit ++ (w1 ++ (litMid ++ (w2 ++ lit2)))) ++
        re_sub convPushPat (re_sub okTaskPat (re_sub taskPushPat y)))
  rw [hpass taskPushPat (Or.inl rfl) x y,
    hpass okTaskPat (Or.inr (Or.inl rfl)) (re_sub taskPushPat x)
      (re_sub taskPushPat y),
    hpass convPushPat (Or.inr (Or.inr rfl))
      (re_sub okTaskPat (re_sub taskPushPat x))
      (re_sub okTaskPat (re_sub taskPushPat y))]

/-- Witness for C9: the surrounding document itself contains patchable
Task text, while the `Ok(ConversationEntry {` region is copied verbatim. -/
theorem c9_ok_conversation_entry_witness :
    fullPatch ("tasks.push(Task \x7b id: row.get(\"id\"), case_id:".data ++
        ((okConvLit ++ ([' '] ++ (litMid ++ ([' '] ++ lit2)))) ++
          " tail".data)) =
      fullPatch "tasks.push(Task \x7b id: row.get(\"id\"), case_id:".data ++
        ((okConvLit ++ ([' '] ++ (litMid ++ ([' '] ++ lit2)))) ++
          fullPatch " tail".data) :=
  c9_ok_conversation_entry "tasks.push(Task \x7b id: row.get(\"id\"), case_id:".data
    " tail".data [' '] [' '] (by decide) (by decide)

/-! ## Claim C10: only the exact `row.get("id")` initializer is patched -/

/-- `litMid` without its trailing comma. -/
def litMidHead : List Char := "id: row.get(\"id\")".data

/-- `a` is a trailing segment of `t`. -/
def sfx (a t : List Char) : Prop := ∃ z, t = z ++ a

theorem sfx_iff {a t : List Char} :
    sfx a t ↔ a.length ≤ t.length ∧ t.drop (t.length - a.length) = a := by
  constructor
  · rintro ⟨z, rfl⟩
    refine ⟨by simp, ?_⟩
    have hz : (z ++ a).length - a.length = z.length := by simp
    rw [hz, List.drop_left]
  · rintro ⟨h1, h2⟩
    refine ⟨t.take (t.length - a.length), ?_⟩
    conv_lhs => rw [← List.take_append_drop (t.length - a.length) t]
    rw [h2]

instance (a t : List Char) : Decidable (sfx a t) :=
  decidable_of_iff _ sfx_iff.symm

/-- No rule pattern matches anywhere inside a wrapped struct literal whose
text `P` before the comma is comma-free and does not end in
`id: row.get("id")`: a match would have to place `litMid`'s unique comma
on the region's unique comma, forcing the excluded suffix, or span the
comma with a comma-free pattern component. -/
theorem bad_region_no_match {q : Pat} {P w2 : List Char}
    (hP : (',' : Char) ∉ P) (hne : ¬ sfx litMidHead P) (hw2 : wsOnly w2)
    (hcq : (',' : Char) ∉ q.lit1) (hq2 : noOccAt lit2 q.lit1)
    (hhd : headNotWs q.lit1)
    (y : List Char) (i : Nat)
    (hi : i < (P ++ (',' :: (w2 ++ lit2))).length)
    (hma : MatchAt q ((P ++ (',' :: (w2 ++ lit2))) ++ y) i) : False := by
  obtain ⟨v1, v2, hv1, hv2, hpfx⟩ := hma
  have hml := mtext_length q v1 v2
  have h18 : litMid.length = 18 := litMid_length
  have h8 : lit2.length = 8 := lit2_length
  have hRlen : (P ++ (',' :: (w2 ++ lit2))).length =
      P.length + 1 + w2.length + lit2.length := by
    simp only [List.length_append, List.length_cons]
    omega
  have hTeq : (P ++ (',' :: (w2 ++ lit2))) ++ y =
      P ++ (',' :: (w2 ++ (lit2 ++ y))) := by
    simp [List.append_assoc]
  rw [hTeq] at hpfx
  set T := P ++ (',' :: (w2 ++ (lit2 ++ y))) with hT
  have hchar : ∀ d : Nat, d < (mtext q v1 v2).length →
      T[i + d]? = (mtext q v1 v2)[d]? := by
    intro d hd
    have h0 := pfx_getElem hpfx hd
    rwa [List.getElem?_drop] at h0
  have hTsep : T[P.length]? = some ',' := by
    rw [hT, List.getElem?_append, if_neg (lt_irrefl _), Nat.sub_self]
    simp
  have hTP : ∀ k : Nat, k < P.length → T[k]? = P[k]? := by
    intro k hk
    rw [hT, List.getElem?_append, if_pos hk]
  have hmid : ∀ e : Nat, e < 18 →
      (mtext q v1 v2)[q.lit1.length + v1.length + e]? = litMid[e]? := by
    intro e he
    rw [mtext_assoc, List.getElem?_append, if_neg (by omega),
      show q.lit1.length + v1.length + e - q.lit1.length = v1.length + e from
        by omega,
      List.getElem?_append, if_neg (by omega),
      show v1.length + e - v1.length = e from by omega,
      List.getElem?_append, if_pos (by omega)]
  have hTmid : ∀ e : Nat, e < 18 →
      T[i + (q.lit1.length + v1.length + e)]? = litMid[e]? := by
    intro e he
    rw [hchar (q.lit1.length + v1.length + e) (by omega)]
    exact hmid e he
  have hlit1 : ∀ j : Nat, j < q.lit1.length → T[i + j]? = q.lit1[j]? := by
    intro j hj
    rw [hchar j (by omega), mtext_assoc, List.getElem?_append, if_pos hj]
  have hv1c : ∀ j : Nat, j < v1.length →
      T[i + (q.lit1.length + j)]? = v1[j]? := by
    intro j hj
    rw [hchar (q.lit1.length + j) (by omega), mtext_assoc,
      List.getElem?_append, if_neg (by omega),
      show q.lit1.length + j - q.lit1.length = j from by omega,
      List.getElem?_append, if_pos hj]
  by_cases hA : i + (q.lit1.length + v1.length + 17) < P.length
  · have h1 := hTmid 17 (by omega)
    rw [hTP _ hA] at h1
    rw [show litMid[17]? = some ',' from by decide] at h1
    exact hP (List.getElem?_mem h1)
  push_neg at hA
  by_cases hB : i + (q.lit1.length + v1.length + 17) = P.length
  · apply hne
    refine ⟨P.take (i + (q.lit1.length + v1.length)), ?_⟩
    have hdropP : P.drop (i + (q.lit1.length + v1.length)) = litMidHead := by
      apply List.ext_getElem?
      intro e
      rw [List.getElem?_drop]
      by_cases he : e < 17
      · have h1 := hTmid e (by omega)
        rw [hTP (i + (q.lit1.length + v1.length + e)) (by omega)] at h1
        rw [show i + (q.lit1.length + v1.length) + e =
          i + (q.lit1.length + v1.length + e) from by omega]
        rw [h1]
        rw [show litMid = litMidHead ++ [','] from by decide,
          List.getElem?_append, if_pos (by
            rw [show litMidHead.length = 17 from by decide]
            omega)]
      · push_neg at he
        rw [List.getElem?_eq_none (by omega),
          List.getElem?_eq_none (by
            rw [show litMidHead.length = 17 from by decide]
            omega)]
    conv_lhs => rw [← List.take_append_drop (i + (q.lit1.length + v1.length)) P]
    rw [hdropP]
  push_neg at hB
  by_cases hC : i + (q.lit1.length + v1.length) ≤ P.length
  · have heb : P.length - (i + (q.lit1.length + v1.length)) < 17 := by omega
    have h1 := hTmid (P.length - (i + (q.lit1.length + v1.length))) (by omega)
    rw [show i + (q.lit1.length + v1.length +
        (P.length - (i + (q.lit1.length + v1.length)))) = P.length from
        by omega,
      hTsep] at h1
    have h2 : ∀ e : Nat, e < 17 → ¬ litMid[e]? = some ',' := by decide
    exact h2 _ heb h1.symm
  push_neg at hC
  by_cases hD1 : i ≤ P.length
  · by_cases hD2 : P.length < i + q.lit1.length
    · have h1 := hlit1 (P.length - i) (by omega)
      rw [show i + (P.length - i) = P.length from by omega, hTsep] at h1
      exact hcq (List.getElem?_mem h1.symm)
    · push_neg at hD2
      have h1 := hv1c (P.length - (i + q.lit1.length)) (by omega)
      rw [show i + (q.lit1.length + (P.length - (i + q.lit1.length))) =
        P.length from by omega, hTsep] at h1
      have hmem : (',' : Char) ∈ v1 := List.getElem?_mem h1.symm
      have hws := hv1 ',' hmem
      exact absurd hws (by decide)
  · push_neg at hD1
    by_cases hD3 : i < P.length + 1 + w2.length
    · have hwc : T[i]? = w2[i - P.length - 1]? := by
        rw [hT, List.getElem?_append, if_neg (by omega),
          show i - P.length = (i - P.length - 1) + 1 from by omega,
          List.getElem?_cons_succ, List.getElem?_append, if_pos (by omega)]
        congr 1
      have h2 := hchar 0 (by omega)
      rw [Nat.add_zero] at h2
      cases hq1 : q.lit1 with
      | nil => rw [hq1] at hhd; exact hhd
      | cons a as =>
        have h3 : (mtext q v1 v2)[0]? = some a := by
          rw [mtext_assoc, hq1]
          simp
        rw [h3] at h2
        rw [h2] at hwc
        have hmem : a ∈ w2 := List.getElem?_mem hwc.symm
        have hws := hw2 a hmem
        rw [hq1] at hhd
        have hf : isSpace a = false := hhd
        rw [hws] at hf
        exact absurd hf (by simp)
    · push_neg at hD3
      have hδ : i - (P.length + 1 + w2.length) < lit2.length := by omega
      have hTd : T.drop i =
          lit2.drop (i - (P.length + 1 + w2.length)) ++ y := by
        rw [hT, drop_seg_ge (show P.length ≤ i from by omega),
          show i - P.length = (i - P.length - 1) + 1 from by omega,
          List.drop_succ_cons,
          drop_seg_ge (show w2.length ≤ i - P.length - 1 from by omega),
          show i - P.length - 1 - w2.length = i - (P.length + 1 + w2.length)
            from by omega]
        exact drop_seg hδ
      rw [hTd, mtext_assoc] at hpfx
      exact occAt_refute hq2 hδ (pfx_of_append hpfx)

/-- Claim C10: a struct literal in a recognized wrapping context whose
`id` field uses any initializer other than the exact text
`row.get("id")` (the text before the comma does not end in
`id: row.get("id")`, and the initializer contains no comma) is left
unchanged by a full patch run, in any surrounding document: every rule's
pattern demands the exact text `id: row.get("id"),` before `case_id:`,
so no match starts inside the literal or crosses into it, and the run
patches the text before and after the literal independently. -/
theorem c10_other_initializer (p : Pat)
    (hp : p = taskPushPat ∨ p = okTaskPat ∨ p = convPushPat)
    (x y w1 w2 E : List Char) (hw1 : wsOnly w1) (hw2 : wsOnly w2)
    (hE : (',' : Char) ∉ E)
    (hne : ¬ sfx litMidHead (p.lit1 ++ (w1 ++ ("id: ".data ++ E)))) :
    fullPatch (x ++ ((p.lit1 ++ (w1 ++ ("id: ".data ++
        (E ++ (',' :: (w2 ++ lit2)))))) ++ y)) =
      fullPatch x ++ ((p.lit1 ++ (w1 ++ ("id: ".data ++
        (E ++ (',' :: (w2 ++ lit2)))))) ++ fullPatch y) := by
  have hPc : (',' : Char) ∉ p.lit1 ++ (w1 ++ ("id: ".data ++ E)) := by
    intro hmem
    rcases List.mem_append.mp hmem with h | h
    · rcases hp with rfl | rfl | rfl <;> exact absurd h (by decide)
    rcases List.mem_append.mp h with h | h
    · exact absurd (hw1 ',' h) (by decide)
    rcases List.mem_append.mp h with h | h
    · exact absurd h (by decide)
    · exact hE h
  have hReq : p.lit1 ++ (w1 ++ ("id: ".data ++ (E ++ (',' :: (w2 ++ lit2))))) =
      (p.lit1 ++ (w1 ++ ("id: ".data ++ E))) ++ (',' :: (w2 ++ lit2)) := by
    simp [List.append_assoc]
  have hpass : ∀ q : Pat, q = taskPushPat ∨ q = okTaskPat ∨ q = convPushPat →
      ∀ a b : List Char,
        re_sub q (a ++ ((p.lit1 ++ (w1 ++ ("id: ".data ++
            (E ++ (',' :: (w2 ++ lit2)))))) ++ b)) =
          re_sub q a ++ ((p.lit1 ++ (w1 ++ ("id: ".data ++
            (E ++ (',' :: (w2 ++ lit2)))))) ++ re_sub q b) := by
    intro q hq
    have hfacts : noWinPfx p.lit1 q.lit1 1 ∧ noWinPfx p.lit1 litMid 0 ∧
        noWinPfx p.lit1 lit2 0 ∧ headNotWs p.lit1 ∧
        (',' : Char) ∉ q.lit1 ∧ noOccAt lit2 q.lit1 ∧ headNotWs q.lit1 := by
      rcases hp with rfl | rfl | rfl <;> rcases hq with rfl | rfl | rfl <;>
        exact ⟨by decide, by decide, by decide, by decide, by decide, by decide,
          by decide⟩
    obtain ⟨hf1, hf2, hf3, hf4, hf5, hf6, hf7⟩ := hfacts
    apply region_pass
    · intro z j hj hma
      rw [hReq] at hj hma
      exact bad_region_no_match hPc hne hw2 hf5 hf6 hf7 z j hj hma
    · intro u z v1 v2 hu hv1 hv2 hpf
      exact cross_refute hf1 hf2 hf3 hf4 hu hv1 hv2 hpf
  show re_sub convPushPat (re_sub okTaskPat (re_sub taskPushPat
      (x ++ ((p.lit1 ++ (w1 ++ ("id: ".data ++
        (E ++ (',' :: (w2 ++ lit2)))))) ++ y)))) =
    re_sub convPushPat (re_sub okTaskPat (re_sub taskPushPat x)) ++
      ((p.lit1 ++ (w1 ++ ("id: ".data ++ (E ++ (',' :: (w2 ++ lit2)))))) ++
        re_sub convPushPat (re_sub okTaskPat (re_sub taskPushPat y)))
  rw [hpass taskPushPat (Or.inl rfl) x y,
    hpass okTaskPat (Or.inr (Or.inl rfl)) (re_sub taskPushPat x)
      (re_sub taskPushPat y),
    hpass convPushPat (Or.inr (Or.inr rfl))
      (re_sub okTaskPat (re_sub taskPushPat x))
      (re_sub okTaskPat (re_sub taskPushPat y))]

/-- Witness for C10: a `tasks.push(Task {` literal whose id initializer is
`row.get("task_id")` stays unchanged, while patchable `Ok(Task {` text in
the surrounding document is still transformed independently. -/
theorem c10_other_initializer_witness :
    fullPatch ("Ok(Task \x7b id: row.get(\"id\"), case_id:".data ++
        ((taskPushPat.lit1 ++ ([' '] ++ ("id: ".data ++
          ("row.get(\"task_id\")".data ++ (',' :: ([' '] ++ lit2)))))) ++
          " rest".data)) =
      fullPatch "Ok(Task \x7b id: row.get(\"id\"), case_id:".data ++
        ((taskPushPat.lit1 ++ ([' '] ++ ("id: ".data ++
          ("row.get(\"task_id\")".data ++ (',' :: ([' '] ++ lit2)))))) ++
          fullPatch " rest".data) :=
  c10_other_initializer taskPushPat (Or.inl rfl)
    "Ok(Task \x7b id: row.get(\"id\"), case_id:".data " rest".data
    [' '] [' '] "row.get(\"task_id\")".data
    (by decide) (by decide) (by decide) (by decide)

/-! ## Claim C6: global substitution over any number of occurrences -/

/-- A document built from clean segments interleaved with full
occurrences of rule `p`'s pattern: `a` precedes the first occurrence, and
each list entry carries one occurrence's two whitespace runs together
with the segment that follows it. -/
def docOf (p : Pat) (a : List Char) :
    List ((List Char × List Char) × List Char) → List Char
  | [] => a
  | o :: rest => a ++ (mtext p o.1.1 o.1.2 ++ docOf p o.2 rest)

/-- The same document with every occurrence patched identically: each
match keeps its group 1 text and receives the rule's initializer
insertion before its `case_id:` token. -/
def patchedOf (p : Pat) (a : List Char) :
    List ((List Char × List Char) × List Char) → List Char
  | [] => a
  | o :: rest =>
    a ++ ((p.lit1 ++ o.1.1 ++ litMid ++ o.1.2 ++ insB p) ++
      patchedOf p o.2 rest)

/-- The whitespace runs are whitespace, and the interleaved segments are
clean: at every position of a segment the rule's pattern fails against
the whole rest of the document, and the final segment hosts no match. -/
def cleanDoc (p : Pat) (a : List Char) :
    List ((List Char × List Char) × List Char) → Prop
  | [] => hasMatchB p a = false
  | o :: rest => wsOnly o.1.1 ∧ wsOnly o.1.2 ∧
      (∀ i < a.length, tryMatch p ((docOf p a (o :: rest)).drop i) = none) ∧
      cleanDoc p o.2 rest

instance cleanDocDec (p : Pat) :
    ∀ (occs : List ((List Char × List Char) × List Char)) (a : List Char),
      Decidable (cleanDoc p a occs)
  | [], a => inferInstanceAs (Decidable (hasMatchB p a = false))
  | o :: rest, a => by
    have hrec := cleanDocDec p rest o.2
    unfold cleanDoc
    infer_instance

/-- One pass of rule `p` over such a document replaces every occurrence:
the scanner skips each clean segment, rewrites the occurrence it reaches,
and continues behind it. -/
theorem re_sub_docOf (p : Pat) :
    ∀ (occs : List ((List Char × List Char) × List Char)) (a : List Char),
      cleanDoc p a occs → re_sub p (docOf p a occs) = patchedOf p a occs := by
  intro occs
  induction occs with
  | nil =>
    intro a h
    have hb : hasMatchB p a = false := h
    show re_sub p a = a
    exact re_sub_noMatch (hasMatchB_false_iff.mp hb)
  | cons o rest ih =>
    obtain ⟨⟨w1, w2⟩, b⟩ := o
    intro a h
    have h2 : wsOnly w1 ∧ wsOnly w2 ∧
        (∀ i < a.length, tryMatch p
          ((a ++ (mtext p w1 w2 ++ docOf p b rest)).drop i) = none) ∧
        cleanDoc p b rest := h
    obtain ⟨hw1, hw2, hA, hrest⟩ := h2
    show re_sub p (a ++ (mtext p w1 w2 ++ docOf p b rest)) = _
    rw [re_sub_skip a.length _ (by simp) hA, List.take_left, List.drop_left]
    have hm1 : tryMatch p (mtext p w1 w2 ++ docOf p b rest) =
        some (p.lit1 ++ w1 ++ litMid ++ w2, docOf p b rest) :=
      tryMatch_some_iff.mpr ⟨w1, w2, hw1, hw2, rfl, rfl⟩
    rw [re_sub_match hm1, ih b hrest]
    show _ = a ++ ((p.lit1 ++ w1 ++ litMid ++ w2 ++ insB p) ++
      patchedOf p b rest)
    simp [insB, List.append_assoc]

/-- Claim C6: global substitution.  For every document containing two or
more full occurrences of the same rule `p`'s pattern separated by clean
segments, one pass of the rule patches every occurrence identically
(each receives the same inserted initializer text), not only the first;
and when the other two rules have no match anywhere in the document, the
whole patch run produces the same everywhere-patched document. -/
theorem c6_multiplicity (p : Pat)
    (hp : p = taskPushPat ∨ p = okTaskPat ∨ p = convPushPat)
    (a : List Char) (occs : List ((List Char × List Char) × List Char))
    (_hn : 2 ≤ occs.length)
    (hclean : cleanDoc p a occs)
    (hq1 : p ≠ taskPushPat → hasMatchB taskPushPat (docOf p a occs) = false)
    (hq2 : p ≠ okTaskPat → hasMatchB okTaskPat (docOf p a occs) = false)
    (hq3 : p ≠ convPushPat → hasMatchB convPushPat (docOf p a occs) = false) :
    re_sub p (docOf p a occs) = patchedOf p a occs ∧
    fullPatch (docOf p a occs) = patchedOf p a occs := by
  have hsingle := re_sub_docOf p occs a hclean
  refine ⟨hsingle, ?_⟩
  rcases hp with rfl | rfl | rfl
  · have hok : noMatch okTaskPat (docOf taskPushPat a occs) :=
      hasMatchB_false_iff.mp (hq2 (by decide))
    have hcv : noMatch convPushPat (docOf taskPushPat a occs) :=
      hasMatchB_false_iff.mp (hq3 (by decide))
    show re_sub convPushPat (re_sub okTaskPat (re_sub taskPushPat _)) = _
    rw [re_sub_noMatch (pres_ok_task _ hok),
      re_sub_noMatch (pres_conv_task _ hcv)]
    exact hsingle
  · have htk : noMatch taskPushPat (docOf okTaskPat a occs) :=
      hasMatchB_false_iff.mp (hq1 (by decide))
    have hcv : noMatch convPushPat (docOf okTaskPat a occs) :=
      hasMatchB_false_iff.mp (hq3 (by decide))
    show re_sub convPushPat (re_sub okTaskPat (re_sub taskPushPat _)) = _
    rw [re_sub_noMatch htk, re_sub_noMatch (pres_conv_ok _ hcv)]
    exact hsingle
  · have htk : noMatch taskPushPat (docOf convPushPat a occs) :=
      hasMatchB_false_iff.mp (hq1 (by decide))
    have hok : noMatch okTaskPat (docOf convPushPat a occs) :=
      hasMatchB_false_iff.mp (hq2 (by decide))
    show re_sub convPushPat (re_sub okTaskPat (re_sub taskPushPat _)) = _
    rw [re_sub_noMatch htk, re_sub_noMatch hok]
    exact hsingle

/-- Witness for C6: a document with three `tasks.push(Task {` occurrences;
one rule pass and the full run patch all three. -/
theorem c6_multiplicity_witness :
    re_sub taskPushPat (docOf taskPushPat "A ".data
        [(([' '], [' ']), " B1 ".data), (([' '], [' ']), " B2 ".data),
          (([' '], [' ']), " B3 ".data)]) =
      patchedOf taskPushPat "A ".data
        [(([' '], [' ']), " B1 ".data), (([' '], [' ']), " B2 ".data),
          (([' '], [' ']), " B3 ".data)] ∧
    fullPatch (docOf taskPushPat "A ".data
        [(([' '], [' ']), " B1 ".data), (([' '], [' ']), " B2 ".data),
          (([' '], [' ']), " B3 ".data)]) =
      patchedOf taskPushPat "A ".data
        [(([' '], [' ']), " B1 ".data), (([' '], [' ']), " B2 ".data),
          (([' '], [' ']), " B3 ".data)] :=
  c6_multiplicity taskPushPat (Or.inl rfl) "A ".data
    [(([' '], [' ']), " B1 ".data), (([' '], [' ']), " B2 ".data),
      (([' '], [' ']), " B3 ".data)]
    (by decide) (by decide) (by decide) (by decide) (by decide)
